import Mathlib

/-!
# keepthis: the `data` package

A shallow embedding of `data/data.go` (package `data`): the store `TData`, its
constructor `Init`, the snapshot writer `store` and the periodic scheduler
`StartSync`, together with the parts of the environment they run against
(the file system of package `os`, a JSON capability, the concurrent map).

Conventions.
* A Go `error` is `Option GoError`; `none` is the `nil` error.
* A Go `string` (a key, a string value) is its sequence of bytes, and a
  `float64` is its sign, mantissa and exponent; the encoder and the decoder of
  `encoding/json` are modelled on texts, with the rounding of `strconv`.
* Functions that touch the file system take the file system as an argument
  and return the new one next to their Go results.
* The goroutine in `store` only computes `MarshalJSON`, which reads the map
  and nothing else, so its result does not depend on the interleaving with
  the file creation of the calling goroutine; it is computed first.
-/

namespace Data

/-! ## Values, maps and errors -/

/-- Contents of a file, the output of the JSON encoder, and a Go `string`:
any sequence of bytes, whether or not it is well-formed UTF-8. -/
abbrev Bytes := List UInt8

/-- A finite `float64`: the number `mant * 2 ^ exp`, negated when `neg`. The
values of the type are kept in the form of the IEEE 754 encoding:
`mant < 2 ^ 53` and `-1074 ≤ exp ≤ 971`, with `2 ^ 52 ≤ mant` unless
`exp = -1074` (a subnormal number or a zero; there are two zeros). -/
structure Float64 where
  neg : Bool
  mant : Nat
  exp : Int
deriving DecidableEq, Repr

/-- The values a store can hold (Go `interface{}`). The first six are the Go
values that the decoder of `encoding/json` makes for an `interface{}`: `nil`,
`bool`, `float64`, `string`, `[]interface{}` and `map[string]interface{}` (an
object is the list of the members of the map). `int` is a Go integer, which
`encoding/json` can encode and never returns; `unsupported` is a Go value it
cannot encode (a channel, a function, a NaN). -/
inductive Value where
  | null
  | bool (b : Bool)
  | number (f : Float64)
  | string (s : Bytes)
  | array (xs : List Value)
  | object (kvs : List (Bytes × Value))
  | int (n : Int)
  | unsupported

/-- A Go `map[string]interface{}`: a finite map whose iteration order is not
observable. -/
abbrev GoMap := Finmap (fun _ : Bytes => Value)


/-- Error numbers of the operating system that the model distinguishes. -/
inductive Errno where
  | ENOENT
  | EEXIST
  | EACCES
  | ENOTDIR
  | EISDIR
  | EROFS
  | ENOSPC
  | EDQUOT
  | EBADF
deriving DecidableEq, Repr

/-- Text of an error number (`syscall.Errno.Error`). -/
def Errno.message : Errno → String
  | .ENOENT => "no such file or directory"
  | .EEXIST => "file exists"
  | .EACCES => "permission denied"
  | .ENOTDIR => "not a directory"
  | .EISDIR => "is a directory"
  | .EROFS => "read-only file system"
  | .ENOSPC => "no space left on device"
  | .EDQUOT => "disk quota exceeded"
  | .EBADF => "bad file descriptor"

/-- The Go error values that occur in the package. -/
inductive GoError where
  /-- An `*os.PathError`: the operation, the path and the error number. -/
  | pathError (op path : String) (errno : Errno)
  /-- The value `os.ErrInvalid`, returned by the methods of a nil `*os.File`. -/
  | errInvalid
  /-- The value `io.ErrShortWrite`. -/
  | errShortWrite
  /-- An error of `encoding/json`. -/
  | jsonError (msg : String)
  /-- The result of `fmt.Errorf` with a format that has no wrapping verb. -/
  | errorString (msg : String)
deriving DecidableEq, Repr

/-- The method `Error()` of an error, as the verb `%v` prints it. -/
def GoError.Error : GoError → String
  | .pathError op path errno => op ++ " " ++ path ++ ": " ++ errno.message
  | .errInvalid => "invalid argument"
  | .errShortWrite => "short write"
  | .jsonError msg => msg
  | .errorString msg => msg

/-- The function `os.IsNotExist`: it looks through a `PathError` and accepts
`ENOENT`; it is false on `nil`. -/
def os.IsNotExist : Option GoError → Bool
  | some (.pathError _ _ .ENOENT) => true
  | _ => false

/-- The function `os.IsExist`: it looks through a `PathError` and accepts
`EEXIST`; it is false on `nil` and on the result of `fmt.Errorf`. -/
def os.IsExist : Option GoError → Bool
  | some (.pathError _ _ .EEXIST) => true
  | _ => false

/-- The JSON capability of `encoding/json`, as the package uses it. -/
structure JSON where
  /-- `json.Marshal` of a `map[string]interface{}`. -/
  Marshal : GoMap → Except GoError Bytes
  /-- `json.NewDecoder(f).Decode(&readData)` on the contents of `f`, with
  `readData` a nil `map[string]interface{}`. -/
  Decode : Bytes → Except GoError GoMap

/-! ## The file system -/

/-- What the process finds at a path. -/
inductive Node where
  /-- Nothing is there, and a file can be created. -/
  | absent
  /-- A regular file the process can read and write. -/
  | file (content : Bytes)
  /-- The path cannot be used by the process: every call on it fails with
  this error number (a directory of the path is missing, is not searchable
  or is not a directory; the path is empty). -/
  | denied (errno : Errno)
deriving DecidableEq

/-- The file system: what is found at each path. -/
abbrev FS := String → Node

/-- The faults of single system calls, which the state of the file system
does not determine. -/
structure Env where
  /-- The outcome of the write system call for these bytes on the file at
  this path: how many bytes it accepted, and its error. -/
  write : String → Bytes → Nat × Option Errno
  /-- The error with which unlinking an existing file at this path fails. -/
  remove : String → Option Errno

/-- A `*os.File`: nil, or a file opened at a path. -/
abbrev File := Option String

/-- The function `os.Stat`, reduced to its error. -/
def os.Stat (fs : FS) (name : String) : Option GoError :=
  match fs name with
  | .file _ => none
  | .absent => some (.pathError "stat" name .ENOENT)
  | .denied e => some (.pathError "stat" name e)

/-- The function `os.Open`. -/
def os.Open (fs : FS) (name : String) : File × Option GoError :=
  match fs name with
  | .file _ => (some name, none)
  | .absent => (none, some (.pathError "open" name .ENOENT))
  | .denied e => (none, some (.pathError "open" name e))

/-- The function `os.Create`: the file is created, or truncated when it
exists. -/
def os.Create (fs : FS) (name : String) : (File × Option GoError) × FS :=
  match fs name with
  | .denied e => ((none, some (.pathError "open" name e)), fs)
  | _ => ((some name, none), Function.update fs name (.file []))

/-- The function `os.Remove`. -/
def os.Remove (env : Env) (fs : FS) (name : String) : Option GoError × FS :=
  match fs name with
  | .denied e => (some (.pathError "remove" name e), fs)
  | .absent => (some (.pathError "remove" name .ENOENT), fs)
  | .file _ =>
    match env.remove name with
    | some e => (some (.pathError "remove" name e), fs)
    | none => (none, Function.update fs name .absent)

/-- The method `(*os.File).Write`. A nil file gives `os.ErrInvalid`. The
bytes the system call accepted are appended to the file; a count different
from `len(b)` gives `io.ErrShortWrite`, and an error of the system call
replaces it. -/
def File.Write (env : Env) (fs : FS) (f : File) (b : Bytes) :
    (Nat × Option GoError) × FS :=
  match f with
  | none => ((0, some .errInvalid), fs)
  | some name =>
    match fs name with
    | .file old =>
      let r := env.write name b
      let n := min r.1 b.length
      let err : Option GoError := if n ≠ b.length then some .errShortWrite else none
      let err : Option GoError :=
        match r.2 with
        | some e => some (.pathError "write" name e)
        | none => err
      ((n, err), Function.update fs name (.file (old ++ b.take n)))
    | _ => ((0, some (.pathError "write" name .EBADF)), fs)

/-- The call `json.NewDecoder(f).Decode(&readData)`: reading a nil file
fails with `os.ErrInvalid`, which `Decode` returns. -/
def decodeFile (J : JSON) (fs : FS) (f : File) : Except GoError GoMap :=
  match f with
  | none => .error .errInvalid
  | some name =>
    match fs name with
    | .file content => J.Decode content
    | _ => .error (.pathError "read" name .EBADF)

/-! ## The concurrent map -/

namespace cmap

/-- Modelled from the spec: the constructor `cmap.New` of the concurrent map
(package `concurrent-map`, not among the sources); it makes the empty store. -/
def New : GoMap := ∅

/-- Modelled from the spec: `get(key) -> (value, found)` of the concurrent
map, without side effects; an absent key gives the zero value `nil`. -/
def Get (m : GoMap) (key : Bytes) : Value × Bool :=
  match m.lookup key with
  | some v => (v, true)
  | none => (.null, false)

/-- Modelled from the spec: `set(key, value)` of the concurrent map, an
unconditional overwrite. -/
def Set (m : GoMap) (key : Bytes) (value : Value) : GoMap :=
  m.insert key value

/-- Modelled from the spec: `setIfAbsent(key, value) -> inserted` of the
concurrent map; it inserts only if the key is absent and returns whether the
insertion happened. -/
def SetIfAbsent (m : GoMap) (key : Bytes) (value : Value) : GoMap × Bool :=
  match m.lookup key with
  | some _ => (m, false)
  | none => (m.insert key value, true)

/-- Modelled from the spec: the bulk insertion `MSet` of the concurrent map,
which inserts every key/value pair of `data`. -/
def MSet (m : GoMap) (data : GoMap) : GoMap :=
  data ∪ m

end cmap

/-! ## The package -/

/-- The struct `TData`: the file path and the embedded concurrent map. -/
structure TData where
  filepath : String
  items : GoMap

namespace TData

/-- The promoted method `Get`. -/
def Get (d : TData) (key : Bytes) : Value × Bool := cmap.Get d.items key

/-- The promoted method `Set`. -/
def Set (d : TData) (key : Bytes) (value : Value) : TData :=
  { d with items := cmap.Set d.items key value }

/-- The promoted method `SetIfAbsent`. -/
def SetIfAbsent (d : TData) (key : Bytes) (value : Value) : TData × Bool :=
  ({ d with items := (cmap.SetIfAbsent d.items key value).1 },
    (cmap.SetIfAbsent d.items key value).2)

/-- The promoted method `MarshalJSON`: the items are copied into a Go map,
which `json.Marshal` encodes. -/
def MarshalJSON (J : JSON) (d : TData) : Except GoError Bytes := J.Marshal d.items

end TData

/-- The function `Init`. It returns the file system next to its result: no
call in it changes a file. -/
def Init (J : JSON) (fs : FS) (filepath : String) : Except GoError TData × FS :=
  let err := os.Stat fs filepath
  if os.IsNotExist err then
    (.ok ⟨filepath, cmap.New⟩, fs)
  else
    match err, os.IsExist err with
    | some e, false => (.error e, fs)
    | _, _ =>
      let (f, err) := os.Open fs filepath
      match err, os.IsNotExist err with
      | some e, false => (.error e, fs)
      | _, _ =>
        match decodeFile J fs f with
        | .error e => (.error e, fs)
        | .ok readData => (.ok ⟨filepath, cmap.MSet cmap.New readData⟩, fs)

/-- The method `store`: the error it returns and the file system it leaves.
The goroutine's `MarshalJSON` is computed first and its result is looked at
where the method receives from `errChan`, after both files have been
created. The calls of `Close` change no file and are left out. -/
def store (J : JSON) (env : Env) (d : TData) (fs : FS) : Option GoError × FS :=
  let marshalled := d.MarshalJSON J
  let ((_, err), fs) := os.Create fs (d.filepath ++ ".lock")
  match err with
  | some err => (some (.errorString ("creating lock file: " ++ err.Error)), fs)
  | none =>
    let ((dbFile, err), fs) := os.Create fs d.filepath
    match err, os.IsNotExist err with
    | some err, true =>
      let (e, fs) := os.Remove env fs (d.filepath ++ ".lock")
      match e with
      | some e =>
        (some (.errorString ("opening json file: " ++ err.Error
          ++ ", and while removing lock file: " ++ e.Error)), fs)
      | none => (some (.errorString ("opening json file: " ++ err.Error)), fs)
    | _, _ =>
      match marshalled with
      | .error err => (some (.errorString ("interpreting db to json: " ++ err.Error)), fs)
      | .ok data =>
        let ((num, err), fs) := File.Write env fs dbFile (data ++ [10])
        match err with
        | some err => (some (.errorString ("writing json file: " ++ err.Error)), fs)
        | none =>
          if num < data.length then
            (some (.errorString ("wrote " ++ toString num ++ " bytes instead of "
              ++ toString data.length ++ " to json file")), fs)
          else
            let (err, fs) := os.Remove env fs (d.filepath ++ ".lock")
            match err with
            | some err => (some (.errorString ("deleting lock file: " ++ err.Error)), fs)
            | none => (none, fs)

/-! ## The scheduler -/

/-- The two states of the goroutine that runs `StartSync`: in its loop, or
returned. -/
inductive SyncState where
  | Running
  | Stopped
deriving DecidableEq, Repr

/-- What the loop of `StartSync` can receive: a value from `interval.C`, with
the items the map holds at that moment, or a value from `quit`. -/
inductive Event where
  | tick (items : GoMap)
  | stop

/-- The scheduler and what it has done so far. -/
structure Sync where
  state : SyncState
  /-- Whether the ticker `interval` is active. -/
  ticking : Bool
  fs : FS
  /-- How many times `store` has been called. -/
  flushes : Nat
  /-- The errors sent on the channel `err`, oldest first. -/
  sent : List GoError

namespace StartSync

/-- The state on entry to the loop: the ticker has been made. -/
def start (fs : FS) : Sync := ⟨.Running, true, fs, 0, []⟩

/-- One iteration of the `select` loop of `StartSync` for the store at
`filepath`. After the `return` no event is received: there is no step. The
send on `err` is taken to complete. -/
def step (J : JSON) (env : Env) (filepath : String) (s : Sync) (ev : Event) : Option Sync :=
  match s.state with
  | .Stopped => none
  | .Running =>
    match ev with
    | .stop => some { s with state := .Stopped, ticking := false }
    | .tick items =>
      let (e, fs) := store J env ⟨filepath, items⟩ s.fs
      match e, os.IsExist e with
      | some e, false => some { s with fs := fs, flushes := s.flushes + 1, sent := s.sent ++ [e] }
      | _, _ => some { s with fs := fs, flushes := s.flushes + 1 }

/-- A run of the scheduler over a sequence of events offered to it; the
events offered after it has returned are not received. -/
def run (J : JSON) (env : Env) (filepath : String) : Sync → List Event → Sync
  | s, [] => s
  | s, ev :: evs =>
    match step J env filepath s ev with
    | some s1 => run J env filepath s1 evs
    | none => s

end StartSync

/-- The function `DoInit`: the store that `Init` returns, and the scheduler
that the new goroutine starts on it; or the error of `Init`, and then no
goroutine. -/
def DoInit (J : JSON) (fs : FS) (filepath : String) : Except GoError (TData × Sync) :=
  match (Init J fs filepath).1 with
  | .error e => .error e
  | .ok this => .ok (this, StartSync.start fs)

/-! ## Numbers and their texts -/

namespace strconv

/-- Whether a character is a decimal digit. -/
def isDigit (c : Char) : Bool := decide (48 ≤ c.toNat ∧ c.toNat ≤ 57)

/-- The number that a sequence of decimal digits writes. -/
def digitsValue (ds : List Char) : Nat := ds.foldl (fun acc d => acc * 10 + (d.toNat - 48)) 0

/-- The number of binary digits of `n`, for a fuel of at least that many. -/
def bitLen : Nat → Nat → Nat
  | 0, _ => 0
  | fuel + 1, n => if n = 0 then 0 else bitLen fuel (n / 2) + 1

/-- The `float64` nearest to the fraction `a / b` (with `0 < b`), a tie going
to the even mantissa, with the sign `neg`; there is none when the nearest
value is beyond the largest `float64`. A fraction below half of the least
subnormal number gives a zero. -/
def roundFloat (neg : Bool) (a b : Nat) : Option Float64 :=
  if a = 0 then some ⟨neg, 0, -1074⟩
  else
    let e1 : Int := (bitLen a a : Int) - (bitLen b b : Int) - 52
    let q1 := (a * 2 ^ (-e1).toNat) / (b * 2 ^ e1.toNat)
    let e2 : Int := if 2 ^ 52 ≤ q1 then e1 else e1 - 1
    let e : Int := if e2 < -1074 then -1074 else e2
    let num := a * 2 ^ (-e).toNat
    let den := b * 2 ^ e.toNat
    let q := num / den
    let r := num % den
    let m := if den < 2 * r ∨ (2 * r = den ∧ q % 2 = 1) then q + 1 else q
    if m = 2 ^ 53 then
      if 971 < e + 1 then none else some ⟨neg, 2 ^ 52, e + 1⟩
    else if 971 < e then none
    else some ⟨neg, m, e⟩

/-- The parts of a number literal of JSON: the sign, the digits before and
after the point, and the sign and the digits of the exponent. -/
structure Literal where
  neg : Bool
  int : List Char
  frac : List Char
  expNeg : Bool
  exp : List Char

/-- The parts of a text that is a number literal of JSON, as a whole: an
optional minus sign, digits without a leading zero unless the zero stands
alone, an optional point with digits, an optional exponent with digits. -/
def splitLiteral (s : List Char) : Option Literal :=
  let neg := decide (s.head?.map Char.toNat = some 45)
  let s1 := if neg then s.drop 1 else s
  let ip := s1.takeWhile isDigit
  let s2 := s1.dropWhile isDigit
  if ip = [] then none
  else if 1 < ip.length ∧ ip.head?.map Char.toNat = some 48 then none
  else
    let hasFrac := decide (s2.head?.map Char.toNat = some 46)
    let fp := if hasFrac then (s2.drop 1).takeWhile isDigit else []
    let s3 := if hasFrac then (s2.drop 1).dropWhile isDigit else s2
    if hasFrac ∧ fp = [] then none
    else
      let hasExp :=
        decide (s3.head?.map Char.toNat = some 101 ∨ s3.head?.map Char.toNat = some 69)
      let s4 := if hasExp then s3.drop 1 else s3
      let eneg := hasExp && decide (s4.head?.map Char.toNat = some 45)
      let esign := hasExp && decide (s4.head?.map Char.toNat = some 45
        ∨ s4.head?.map Char.toNat = some 43)
      let s5 := if esign then s4.drop 1 else s4
      let ep := if hasExp then s5.takeWhile isDigit else []
      let s6 := if hasExp then s5.dropWhile isDigit else s5
      if hasExp ∧ ep = [] then none
      else if s6 ≠ [] then none
      else some ⟨neg, ip, fp, eneg, ep⟩

/-- The `float64` that a literal writes: the nearest one. A literal whose
value is at least `10 ^ 310` is out of range, and one whose value is below
`10 ^ (-330)` gives a zero; neither needs the power of ten to be computed. -/
def Literal.value (l : Literal) : Option Float64 :=
  let d := digitsValue (l.int ++ l.frac)
  if d = 0 then some ⟨l.neg, 0, -1074⟩
  else
    let e : Int :=
      (if l.expNeg then - (digitsValue l.exp : Int) else (digitsValue l.exp : Int))
        - (l.frac.length : Int)
    let top : Int := ((Nat.toDigits 10 d).length : Int) + e
    if 310 < top then none
    else if top < -330 then some ⟨l.neg, 0, -1074⟩
    else if 0 ≤ e then roundFloat l.neg (d * 10 ^ e.toNat) 1
    else roundFloat l.neg d (10 ^ (-e).toNat)

/-- The function `strconv.ParseFloat(s, 64)` on the number literals of JSON:
the nearest `float64`, or the range error (`none`). The decoder passes it
nothing but such literals; every other text is refused here. -/
def ParseFloat (s : List Char) : Option Float64 :=
  match splitLiteral s with
  | some l => l.value
  | none => none

/-- The digits of a decimal without the zeros at its end. -/
def stripZeros (ds : List Char) : List Char :=
  (ds.reverse.dropWhile (fun c => decide (c.toNat = 48))).reverse

/-- The decimal `0.d₁d₂… * 10 ^ dp` of the digits `ds` (type `decimalSlice`
of package `strconv`). -/
structure Decimal where
  ds : List Char
  dp : Int

/-- The decimal of the number `c * 10 ^ (-scale)`, for `0 < c`. -/
def Decimal.ofScaled (c : Nat) (scale : Int) : Decimal :=
  ⟨stripZeros (Nat.toDigits 10 c), ((Nat.toDigits 10 c).length : Int) - scale⟩

/-- The exponent `p` of the fraction `a / b`, with `0 < a` and `0 < b`:
`10 ^ p ≤ a / b < 10 ^ (p + 1)`. -/
def decimalExp (a b : Nat) : Int :=
  let p0 : Int := ((Nat.toDigits 10 a).length : Int) - ((Nat.toDigits 10 b).length : Int)
  if 10 ^ p0.toNat * b ≤ a * 10 ^ (-p0).toNat then p0 else p0 - 1

/-- The decimals of `k` digits next to the fraction `a / b` of exponent `p`,
the nearer one first (of two equally near ones, the one that ends in an even
digit); the fraction itself when it has no more than `k` digits. -/
def nearest (a b : Nat) (p : Int) (k : Nat) : List Decimal :=
  let scale : Int := (k : Int) - 1 - p
  let num := a * 10 ^ scale.toNat
  let den := b * 10 ^ (-scale).toNat
  let lo := num / den
  let r := num % den
  if r = 0 then [Decimal.ofScaled lo scale]
  else if 2 * r < den ∨ (2 * r = den ∧ lo % 2 = 0) then
    [Decimal.ofScaled lo scale, Decimal.ofScaled (lo + 1) scale]
  else [Decimal.ofScaled (lo + 1) scale, Decimal.ofScaled lo scale]

/-- The decimals among which the shortest one that reads back as `f` is
looked for, for `f` other than zero: for each number of digits from 1 to 17,
the decimals of that many digits next to `f`. -/
def decimals (f : Float64) : List Decimal :=
  let a := f.mant * 2 ^ f.exp.toNat
  let b := 2 ^ (-f.exp).toNat
  let p := decimalExp a b
  (List.range 17).flatMap (fun k => nearest a b p (k + 1))

/-- The layout of the verb `%e` for the digits of a decimal, all of them:
`d.ddde±dd`, the exponent with two digits at least (`fmtE`). -/
def fmtE (neg : Bool) (d : Decimal) : List Char :=
  let exp : Int := d.dp - 1
  let n := exp.natAbs
  (if neg then [Char.ofNat 45] else [])
    ++ d.ds.take 1
    ++ (if 1 < d.ds.length then Char.ofNat 46 :: d.ds.drop 1 else [])
    ++ [Char.ofNat 101, if exp < 0 then Char.ofNat 45 else Char.ofNat 43]
    ++ (if n < 10 then Char.ofNat 48 :: Nat.toDigits 10 n else Nat.toDigits 10 n)

/-- The layout of the verb `%f` for the digits of a decimal, all of them and
no more (`fmtF`). -/
def fmtF (neg : Bool) (d : Decimal) : List Char :=
  let prec : Int := (d.ds.length : Int) - d.dp
  (if neg then [Char.ofNat 45] else [])
    ++ (if 0 < d.dp then
          d.ds.take d.dp.toNat ++ List.replicate (d.dp.toNat - d.ds.length) (Char.ofNat 48)
        else [Char.ofNat 48])
    ++ (if 0 < prec then
          Char.ofNat 46 :: (List.replicate (-d.dp).toNat (Char.ofNat 48) ++ d.ds.drop d.dp.toNat)
        else [])

/-- Whether the magnitude of `f` is below the magnitude of `g`, for values
in the form of a `float64`: the exponents are compared, then the mantissas. -/
def magLT (f g : Float64) : Bool :=
  decide (f.exp < g.exp ∨ (f.exp = g.exp ∧ f.mant < g.mant))

end strconv

/-! ## A JSON codec -/

namespace json

/-- The bytes of a key as numbers. Go compares keys bytewise. -/
def codes (s : Bytes) : List Nat := s.map UInt8.toNat

/-- Lexicographic comparison of sequences of numbers. -/
def codesLE : List Nat → List Nat → Bool
  | [], _ => true
  | _ :: _, [] => false
  | a :: as, b :: bs => decide (a < b) || (decide (a = b) && codesLE as bs)

/-- The order in which `json.Marshal` writes the keys of a map. -/
def keyLE (a b : Bytes) : Prop := codesLE (codes a) (codes b) = true

instance : DecidableRel keyLE := fun _ _ => inferInstanceAs (Decidable (_ = true))

instance : IsTotal Bytes keyLE := ⟨fun a b => by
  unfold keyLE
  generalize codes a = x
  generalize codes b = y
  induction x generalizing y with
  | nil => exact Or.inl rfl
  | cons a as ih =>
    cases y with
    | nil => exact Or.inr rfl
    | cons b bs =>
      rcases Nat.lt_trichotomy a b with h | h | h
      · left; simp [codesLE, h]
      · subst h
        rcases ih bs with h | h
        · left; simp [codesLE, h]
        · right; simp [codesLE, h]
      · right; simp [codesLE, h]⟩

instance : IsTrans Bytes keyLE := ⟨fun a b c => by
  unfold keyLE
  generalize codes a = x
  generalize codes b = y
  generalize codes c = z
  induction x generalizing y z with
  | nil => intro _ _; rfl
  | cons a as ih =>
    cases y with
    | nil => intro h; simp [codesLE] at h
    | cons b bs =>
      cases z with
      | nil => intro _ h; simp [codesLE] at h
      | cons c cs =>
        intro h1 h2
        simp only [codesLE, Bool.or_eq_true, decide_eq_true_eq, Bool.and_eq_true] at h1 h2 ⊢
        rcases h1 with h1 | ⟨h1, h3⟩ <;> rcases h2 with h2 | ⟨h2, h4⟩
        · left; omega
        · left; omega
        · left; omega
        · right; exact ⟨by omega, ih bs cs h3 h4⟩⟩

instance : IsAntisymm Bytes keyLE := ⟨fun a b => by
  unfold keyLE
  intro h1 h2
  have key : ∀ x y : List Nat, codesLE x y = true → codesLE y x = true → x = y := by
    intro x
    induction x with
    | nil =>
      intro y _ h
      cases y with
      | nil => rfl
      | cons b bs => simp [codesLE] at h
    | cons a as ih =>
      intro y h3 h4
      cases y with
      | nil => simp [codesLE] at h3
      | cons b bs =>
        simp only [codesLE, Bool.or_eq_true, decide_eq_true_eq, Bool.and_eq_true] at h3 h4
        rcases h3 with h3 | ⟨h3, h5⟩ <;> rcases h4 with h4 | ⟨h4, h6⟩
        · omega
        · omega
        · omega
        · rw [h3, ih bs h5 h6]
  have hc : codes a = codes b := key _ _ h1 h2
  apply List.map_injective_iff.mpr _ hc
  intro x y hxy
  exact UInt8.ext hxy⟩

/-- The keys of a map in the order of `keyLE`. -/
def sortedKeys (m : GoMap) : List Bytes :=
  Quotient.liftOn m.keys.val (List.insertionSort keyLE) (fun a b h =>
    List.eq_of_perm_of_sorted
      (((List.perm_insertionSort keyLE a).trans h).trans (List.perm_insertionSort keyLE b).symm)
      (List.sorted_insertionSort keyLE a) (List.sorted_insertionSort keyLE b))

/-- The UTF-8 bytes of a character. -/
def utf8Char (c : Char) : Bytes :=
  let n := c.toNat
  if n < 128 then [UInt8.ofNat n]
  else if n < 2048 then [UInt8.ofNat (192 + n / 64), UInt8.ofNat (128 + n % 64)]
  else if n < 65536 then
    [UInt8.ofNat (224 + n / 4096), UInt8.ofNat (128 + n / 64 % 64), UInt8.ofNat (128 + n % 64)]
  else
    [UInt8.ofNat (240 + n / 262144), UInt8.ofNat (128 + n / 4096 % 64),
      UInt8.ofNat (128 + n / 64 % 64), UInt8.ofNat (128 + n % 64)]

/-- The UTF-8 bytes of a text. -/
def utf8Encode (cs : List Char) : Bytes := cs.flatMap utf8Char

/-- The UTF-8 bytes of a string. -/
def bytesOf (s : String) : Bytes := utf8Encode s.toList

/-- Whether a byte continues a UTF-8 sequence. -/
def isCont (b : UInt8) : Bool := decide (128 ≤ b.toNat ∧ b.toNat < 192)

/-- The first code point of a byte sequence and the number of bytes it takes.
A byte that does not start a well-formed sequence gives U+FFFD and takes one
byte, as in Go. -/
def utf8Head : Bytes → Nat × Nat
  | [] => (65533, 0)
  | b0 :: r =>
    let n0 := b0.toNat
    if n0 < 128 then (n0, 1)
    else if 194 ≤ n0 ∧ n0 < 224 then
      match r with
      | b1 :: _ =>
        if isCont b1 then ((n0 - 192) * 64 + (b1.toNat - 128), 2) else (65533, 1)
      | _ => (65533, 1)
    else if 224 ≤ n0 ∧ n0 < 240 then
      match r with
      | b1 :: b2 :: _ =>
        let cp := (n0 - 224) * 4096 + (b1.toNat - 128) * 64 + (b2.toNat - 128)
        if isCont b1 ∧ isCont b2 ∧ 2048 ≤ cp ∧ ¬ (55296 ≤ cp ∧ cp < 57344) then (cp, 3)
        else (65533, 1)
      | _ => (65533, 1)
    else if 240 ≤ n0 ∧ n0 < 245 then
      match r with
      | b1 :: b2 :: b3 :: _ =>
        let cp := (n0 - 240) * 262144 + (b1.toNat - 128) * 4096 + (b2.toNat - 128) * 64
          + (b3.toNat - 128)
        if isCont b1 ∧ isCont b2 ∧ isCont b3 ∧ 65536 ≤ cp ∧ cp < 1114112 then (cp, 4)
        else (65533, 1)
      | _ => (65533, 1)
    else (65533, 1)

/-- The text of a byte sequence read as UTF-8, each byte that is not part
of a well-formed sequence read as U+FFFD. -/
def utf8Decode : Nat → Bytes → List Char
  | 0, _ => []
  | _ + 1, [] => []
  | fuel + 1, b :: bs =>
    let r := utf8Head (b :: bs)
    Char.ofNat r.1 :: utf8Decode fuel ((b :: bs).drop r.2)

/-- The runes of a Go string as `utf8.DecodeRuneInString` steps through
them: the character of each well-formed sequence, and `none` for each byte
that is not part of one (the rune `RuneError` of width 1). -/
def utf8Runes : Nat → Bytes → List (Option Char)
  | 0, _ => []
  | _ + 1, [] => []
  | fuel + 1, b :: bs =>
    let r := utf8Head (b :: bs)
    (if r = (65533, 1) then none else some (Char.ofNat r.1))
      :: utf8Runes fuel ((b :: bs).drop r.2)

/-- Whether a Go string is well-formed UTF-8 (`utf8.ValidString`): read as
UTF-8 and written again it is the same bytes. -/
def validUTF8 (s : Bytes) : Bool := decide (utf8Encode (utf8Decode s.length s) = s)

/-- A hexadecimal digit, in lower case. -/
def hexDigit (n : Nat) : Char := Char.ofNat (if n < 10 then 48 + n else 87 + n)

/-- The escape `\u` followed by four hexadecimal digits. -/
def escapeU (n : Nat) : List Char :=
  [Char.ofNat 92, Char.ofNat 117, hexDigit (n / 4096 % 16), hexDigit (n / 256 % 16),
    hexDigit (n / 16 % 16), hexDigit (n % 16)]

/-- The text of one character inside a JSON string, with the escaping of
HTML characters that `json.Marshal` applies. Backspace and form feed are
written with their one-letter escapes, as the releases of Go since 1.22 do
(the earlier ones wrote `\u0008` and `\u000c`, which read back the same). -/
def escapeChar (c : Char) : List Char :=
  let n := c.toNat
  if n = 34 then [Char.ofNat 92, Char.ofNat 34]
  else if n = 92 then [Char.ofNat 92, Char.ofNat 92]
  else if n = 8 then [Char.ofNat 92, Char.ofNat 98]
  else if n = 12 then [Char.ofNat 92, Char.ofNat 102]
  else if n = 10 then [Char.ofNat 92, Char.ofNat 110]
  else if n = 13 then [Char.ofNat 92, Char.ofNat 114]
  else if n = 9 then [Char.ofNat 92, Char.ofNat 116]
  else if n < 32 ∨ n = 60 ∨ n = 62 ∨ n = 38 ∨ n = 8232 ∨ n = 8233 then escapeU n
  else [c]

/-- The text of one rune of a Go string inside a JSON string: a byte that is
not part of well-formed UTF-8 is written as the escape of U+FFFD. -/
def escapeRune : Option Char → List Char
  | some c => escapeChar c
  | none => escapeU 65533

/-- The text of a Go string as a JSON string. -/
def encodeString (s : Bytes) : List Char :=
  Char.ofNat 34 :: ((utf8Runes s.length s).flatMap escapeRune ++ [Char.ofNat 34])

/-- The tail of the layout `%e` as `encoding/json` writes it: an exponent
`e-0d` becomes `e-d`. -/
def cleanExp (b : List Char) : List Char :=
  match b.reverse with
  | d :: z :: m :: e :: rest =>
    if e.toNat = 101 ∧ m.toNat = 45 ∧ z.toNat = 48 then (d :: m :: e :: rest).reverse else b
  | _ => b

/-- Whether a character can stand in a number literal. -/
def isNumChar (c : Char) : Bool :=
  strconv.isDigit c || decide (c.toNat = 43 ∨ c.toNat = 45 ∨ c.toNat = 46 ∨ c.toNat = 101
    ∨ c.toNat = 69)

/-- The `float64` nearest to `1e-6`, below which `encoding/json` writes a
number with an exponent. -/
def tiny : Float64 := ⟨false, 4722366482869645, -72⟩

/-- The `float64` `1e21`, from which on `encoding/json` writes a number with
an exponent. -/
def huge : Float64 := ⟨false, 7629394531250000, 17⟩

/-- The texts among which the text of a `float64` is looked for, the
shortest first: `0` and `-0` for the zeros, and for the other numbers the
decimals next to the number in the layout `%e` when its magnitude is below
`1e-6` or at least `1e21`, in the layout `%f` otherwise. -/
def floatTexts (f : Float64) : List (List Char) :=
  if f.mant = 0 then [if f.neg then [Char.ofNat 45, Char.ofNat 48] else [Char.ofNat 48]]
  else if strconv.magLT f tiny || !strconv.magLT f huge then
    (strconv.decimals f).map (fun d => cleanExp (strconv.fmtE f.neg d))
  else (strconv.decimals f).map (strconv.fmtF f.neg)

/-- The text of a `float64` as `encoding/json` writes it
(`floatEncoder.encode`, which calls `strconv.AppendFloat` with the precision
-1: the smallest number of digits necessary such that `ParseFloat` returns
the number exactly): the first of `floatTexts` that `ParseFloat` reads back
as the number, which is the shortest decimal that does, and of two of the
same length the nearer one. Seventeen digits are enough for every `float64`;
there is no text for a value that is not in the form of a `float64`. -/
def floatText (f : Float64) : Option (List Char) :=
  (floatTexts f).find? (fun t => t.all isNumChar && decide (strconv.ParseFloat t = some f))

/-- The decimal text of an integer. -/
def intText : Int → List Char
  | .ofNat m => Nat.toDigits 10 m
  | .negSucc m => Char.ofNat 45 :: Nat.toDigits 10 (m + 1)

/-- Insertion of an encoded member among members sorted by key. -/
def insertMember (kv : Bytes × List Char) :
    List (Bytes × List Char) → List (Bytes × List Char)
  | [] => [kv]
  | x :: xs => if keyLE kv.1 x.1 then kv :: x :: xs else x :: insertMember kv xs

/-- The members of an object between the braces: `"key":value`, separated
by commas. -/
def joinMembers : List (Bytes × List Char) → List Char
  | [] => []
  | [kv] => encodeString kv.1 ++ Char.ofNat 58 :: kv.2
  | kv :: rest => encodeString kv.1 ++ Char.ofNat 58 :: (kv.2 ++ Char.ofNat 44 :: joinMembers rest)

/-- The elements of an array between the brackets. -/
def joinElems : List (List Char) → List Char
  | [] => []
  | [b] => b
  | b :: rest => b ++ Char.ofNat 44 :: joinElems rest

mutual
/-- The JSON text of a value, as `json.Marshal` writes it: no white space,
and the members of an object in the order of their keys. -/
def textValue : Value → List Char
  | .null => "null".toList
  | .bool true => "true".toList
  | .bool false => "false".toList
  | .number f => (floatText f).getD []
  | .string s => encodeString s
  | .array xs => Char.ofNat 91 :: (joinElems (textElems xs) ++ [Char.ofNat 93])
  | .object kvs =>
    Char.ofNat 123 :: (joinMembers ((textMembers kvs).foldr insertMember []) ++ [Char.ofNat 125])
  | .int n => intText n
  | .unsupported => []
/-- The texts of the elements of an array. -/
def textElems : List Value → List (List Char)
  | [] => []
  | x :: xs => textValue x :: textElems xs
/-- The keys and texts of the members of an object. -/
def textMembers : List (Bytes × Value) → List (Bytes × List Char)
  | [] => []
  | (k, x) :: xs => (k, textValue x) :: textMembers xs
end

mutual
/-- Whether `json.Marshal` can encode a value: no part of it is a value that
cannot be encoded, and every number has its text. -/
def serializable : Value → Bool
  | .unsupported => false
  | .number f => (floatText f).isSome
  | .array xs => serializableElems xs
  | .object kvs => serializableMembers kvs
  | _ => true
/-- Whether every element can be encoded. -/
def serializableElems : List Value → Bool
  | [] => true
  | x :: xs => serializable x && serializableElems xs
/-- Whether the value of every member can be encoded. -/
def serializableMembers : List (Bytes × Value) → Bool
  | [] => true
  | (_, x) :: xs => serializable x && serializableMembers xs
end

/-- The members of a Go map in the order of their keys. -/
def members (m : GoMap) : List (Bytes × Value) :=
  (sortedKeys m).map (fun k => (k, (m.lookup k).getD .null))

/-- The function `json.Marshal` on a `map[string]interface{}`: the UTF-8
bytes of the text of the object, or the error for a value that cannot be
encoded (the text of the error is the one for a channel of `int`). -/
def Marshal (m : GoMap) : Except GoError Bytes :=
  if serializableMembers (members m) then .ok (utf8Encode (textValue (.object (members m))))
  else .error (.jsonError "json: unsupported type: chan int")

/-- JSON white space. -/
def isWS (c : Char) : Bool := decide (c.toNat = 32 ∨ c.toNat = 9 ∨ c.toNat = 10 ∨ c.toNat = 13)

/-- The text after leading white space. -/
def skipWS : List Char → List Char
  | [] => []
  | c :: cs => if isWS c then skipWS cs else c :: cs

/-- The value of a hexadecimal digit. -/
def hexVal (c : Char) : Option Nat :=
  let n := c.toNat
  if 48 ≤ n ∧ n ≤ 57 then some (n - 48)
  else if 97 ≤ n ∧ n ≤ 102 then some (n - 87)
  else if 65 ≤ n ∧ n ≤ 70 then some (n - 55)
  else none

/-- Four hexadecimal digits. -/
def parseHex4 : List Char → Option (Nat × List Char)
  | a :: b :: c :: d :: rest =>
    match hexVal a, hexVal b, hexVal c, hexVal d with
    | some x, some y, some z, some w => some (x * 4096 + y * 256 + z * 16 + w, rest)
    | _, _, _, _ => none
  | _ => none

/-- The character of a one-letter escape. -/
def simpleEscape (c : Char) : Option Char :=
  let n := c.toNat
  if n = 34 ∨ n = 92 ∨ n = 47 then some c
  else if n = 98 then some (Char.ofNat 8)
  else if n = 102 then some (Char.ofNat 12)
  else if n = 110 then some (Char.ofNat 10)
  else if n = 114 then some (Char.ofNat 13)
  else if n = 116 then some (Char.ofNat 9)
  else none

/-- One more character in front of the rest of a string. -/
def consChar (c : Char) : Option (List Char × List Char) → Option (List Char × List Char)
  | some (s, rest) => some (c :: s, rest)
  | none => none

/-- The characters of a JSON string after its opening quote, and the text
after its closing quote. A surrogate that is not half of a pair becomes
U+FFFD. -/
def parseChars : Nat → List Char → Option (List Char × List Char)
  | 0, _ => none
  | _ + 1, [] => none
  | fuel + 1, c :: cs =>
    if c.toNat = 34 then some ([], cs)
    else if c.toNat = 92 then
      match cs with
      | [] => none
      | e :: cs1 =>
        if e.toNat = 117 then
          match parseHex4 cs1 with
          | none => none
          | some (u, cs2) =>
            if 55296 ≤ u ∧ u < 56320 then
              match cs2 with
              | b :: v :: cs3 =>
                match parseHex4 cs3 with
                | some (lo, cs4) =>
                  if b.toNat = 92 ∧ v.toNat = 117 ∧ 56320 ≤ lo ∧ lo < 57344 then
                    consChar (Char.ofNat (65536 + (u - 55296) * 1024 + (lo - 56320)))
                      (parseChars fuel cs4)
                  else consChar (Char.ofNat 65533) (parseChars fuel cs2)
                | none => consChar (Char.ofNat 65533) (parseChars fuel cs2)
              | _ => consChar (Char.ofNat 65533) (parseChars fuel cs2)
            else if 56320 ≤ u ∧ u < 57344 then consChar (Char.ofNat 65533) (parseChars fuel cs2)
            else consChar (Char.ofNat u) (parseChars fuel cs2)
        else
          match simpleEscape e with
          | some x => consChar x (parseChars fuel cs1)
          | none => none
    else if c.toNat < 32 then none
    else consChar c (parseChars fuel cs)

/-- The text after a literal name, when the text starts with it. -/
def parseLit (name : String) (cs : List Char) : Option (List Char) :=
  if name.toList.isPrefixOf cs then some (cs.drop name.length) else none

/-- A member put into the members of an object, which are kept sorted by key;
a later member replaces an earlier one of the same key. -/
def putMember (k : Bytes) (v : Value) : List (Bytes × Value) → List (Bytes × Value)
  | [] => [(k, v)]
  | x :: xs =>
    if k = x.1 then (k, v) :: xs
    else if keyLE k x.1 then (k, v) :: x :: xs
    else x :: putMember k v xs

/-- The members of an object, from the members in the order of the text. -/
def putMembers (kvs : List (Bytes × Value)) : List (Bytes × Value) :=
  kvs.foldl (fun acc kv => putMember kv.1 kv.2 acc) []

mutual
/-- One JSON value and the text after it. A number is the longest run of
the characters of number literals, which must be a literal as a whole: what
follows a value is white space, a comma or a closing bracket, or the text is
refused. -/
def parseValue : Nat → List Char → Option (Value × List Char)
  | 0, _ => none
  | fuel + 1, cs =>
    match skipWS cs with
    | [] => none
    | c :: rest =>
      if c.toNat = 123 then
        match skipWS rest with
        | [] => none
        | c1 :: rest1 =>
          if c1.toNat = 125 then some (.object [], rest1)
          else
            match parseMembers fuel (c1 :: rest1) with
            | some (kvs, r) => some (.object (putMembers kvs), r)
            | none => none
      else if c.toNat = 91 then
        match skipWS rest with
        | [] => none
        | c1 :: rest1 =>
          if c1.toNat = 93 then some (.array [], rest1)
          else
            match parseElems fuel (c1 :: rest1) with
            | some (vs, r) => some (.array vs, r)
            | none => none
      else if c.toNat = 34 then
        match parseChars (rest.length + 1) rest with
        | some (s, r) => some (.string (utf8Encode s), r)
        | none => none
      else if c.toNat = 116 then (parseLit "true" (c :: rest)).map (fun r => (.bool true, r))
      else if c.toNat = 102 then (parseLit "false" (c :: rest)).map (fun r => (.bool false, r))
      else if c.toNat = 110 then (parseLit "null" (c :: rest)).map (fun r => (.null, r))
      else
        (strconv.ParseFloat ((c :: rest).takeWhile isNumChar)).map
          (fun f => (.number f, (c :: rest).dropWhile isNumChar))
/-- The elements of an array up to its closing bracket. -/
def parseElems : Nat → List Char → Option (List Value × List Char)
  | 0, _ => none
  | fuel + 1, cs =>
    match parseValue fuel cs with
    | none => none
    | some (v, r) =>
      match skipWS r with
      | [] => none
      | c :: r1 =>
        if c.toNat = 44 then
          match parseElems fuel r1 with
          | some (vs, r2) => some (v :: vs, r2)
          | none => none
        else if c.toNat = 93 then some ([v], r1)
        else none
/-- The members of an object up to its closing brace. -/
def parseMembers : Nat → List Char → Option (List (Bytes × Value) × List Char)
  | 0, _ => none
  | fuel + 1, cs =>
    match skipWS cs with
    | [] => none
    | q :: r =>
      if q.toNat = 34 then
        match parseChars (r.length + 1) r with
        | none => none
        | some (k, r1) =>
          match skipWS r1 with
          | [] => none
          | c2 :: r2 =>
            if c2.toNat = 58 then
              match parseValue fuel r2 with
              | none => none
              | some (v, r3) =>
                match skipWS r3 with
                | [] => none
                | c3 :: r4 =>
                  if c3.toNat = 44 then
                    match parseMembers fuel r4 with
                    | some (kvs, r5) => some ((utf8Encode k, v) :: kvs, r5)
                    | none => none
                  else if c3.toNat = 125 then some ([(utf8Encode k, v)], r4)
                  else none
            else none
      else none
end

/-- The Go map of the members of a decoded object. -/
def toMap (kvs : List (Bytes × Value)) : GoMap :=
  kvs.foldl (fun m kv => m.insert kv.1 kv.2) ∅

/-- The call `Decode(&readData)` of a `json.Decoder` on a stream with these
contents, for a nil `map[string]interface{}`: the first JSON value of the
stream is read. An object fills the map, whatever follows its closing brace;
`null` leaves the map empty, and must be followed by white space or by the
end of the stream. The errors stand for the syntax error, the range error of
a number and the type error of `encoding/json`; their texts are abridged. -/
def Decode (b : Bytes) : Except GoError GoMap :=
  let cs := utf8Decode b.length b
  match skipWS cs with
  | [] => .error (.jsonError "EOF")
  | _ :: _ =>
    match parseValue (cs.length + 1) cs with
    | none => .error (.jsonError "invalid character in JSON text")
    | some (.object kvs, _) => .ok (toMap kvs)
    | some (.null, []) => .ok ∅
    | some (.null, c :: _) =>
      if isWS c then .ok ∅
      else .error (.jsonError "invalid character after top-level value")
    | some _ =>
      .error (.jsonError "json: cannot unmarshal into Go value of type map[string]interface {}")

/-- The strict order of the keys. -/
def keyLT (a b : Bytes) : Prop := keyLE a b ∧ a ≠ b

mutual
/-- The values that stand for a Go value as the decoder makes them for an
`interface{}`: `nil`, a `bool`, a `float64`, a `string` that is well-formed
UTF-8, a slice of such values, and a map of such values whose keys are
well-formed UTF-8 (its members are in the order of their keys, each key once,
as the members of a Go map are taken). No part is a Go integer or a value
that cannot be encoded. -/
def Normal : Value → Prop
  | .unsupported => False
  | .int _ => False
  | .string s => validUTF8 s = true
  | .array xs => NormalElems xs
  | .object kvs => NormalMembers kvs ∧ (kvs.map Prod.fst).Pairwise keyLT
  | _ => True
/-- Every element is normal. -/
def NormalElems : List Value → Prop
  | [] => True
  | x :: xs => Normal x ∧ NormalElems xs
/-- The key of every member is well-formed UTF-8 and its value is normal. -/
def NormalMembers : List (Bytes × Value) → Prop
  | [] => True
  | (k, x) :: xs => (validUTF8 k = true ∧ Normal x) ∧ NormalMembers xs
end

/-- The Go maps all of whose keys are well-formed UTF-8 and all of whose
values are normal. -/
def NormalMap (m : GoMap) : Prop :=
  ∀ k v, m.lookup k = some v → validUTF8 k = true ∧ Normal v

end json

/-- The JSON capability made of `json.Marshal` and `json.Decode`. -/
def goJSON : JSON := ⟨json.Marshal, json.Decode⟩

/-! ## Concrete inputs -/

/-- An environment in which no system call fails: every write accepts all
its bytes and every unlink succeeds. -/
def noFaults : Env := ⟨fun _ b => (b.length, none), fun _ => none⟩

/-- An environment whose device is full: a write accepts all bytes but the
last and fails with `ENOSPC`. -/
def diskFull : Env := ⟨fun _ b => (b.length - 1, some .ENOSPC), fun _ => none⟩

/-- The file system without any file. -/
def emptyFS : FS := fun _ => .absent

/-- The file system whose only file is at `name`. -/
def oneFile (name : String) (content : Bytes) : FS :=
  Function.update emptyFS name (.file content)

/-- The Go string of a text: its UTF-8 bytes. -/
def str (s : String) : Bytes := json.bytesOf s

/-- A store that holds a Go channel, which `json.Marshal` cannot encode. -/
def chanStore : TData := ⟨"./db.json", Finmap.insert (str "k") Value.unsupported ∅⟩

/-- A store all of whose values are serializable. -/
def kvStore : TData := ⟨"./db.json", Finmap.insert (str "k") (Value.string (str "v")) ∅⟩

/-- The snapshot of `kvStore`. -/
def kvSnapshot : Bytes := json.bytesOf "\x7b\"k\":\"v\"\x7d" ++ [10]

/-- The sequence of calls `SetIfAbsent` of `TestDoInit`, one after the other:
the store they leave and the value each call returned. -/
def setAllIfAbsent (d : TData) : List (Bytes × Value) → TData × List Bool
  | [] => (d, [])
  | kv :: rest =>
    let r := d.SetIfAbsent kv.1 kv.2
    let rs := setAllIfAbsent r.1 rest
    (rs.1, r.2 :: rs.2)

/-- The keys and values of `TestDoInit`: `i` and `Test i` for `i` below 50. -/
def testPairs : List (Bytes × Value) :=
  (List.range 50).map (fun i => (str (toString i), Value.string (str ("Test " ++ toString i))))

/-- The Go string `"a\xffb"`: the byte `0xff` is not part of well-formed
UTF-8. -/
def badString : Bytes := [97, 255, 98]

/-- The text `a`, U+FFFD, `b` in UTF-8: what `badString` is read back as. -/
def replacedString : Bytes := [97, 239, 191, 189, 98]

/-- A store whose only value is the string `badString`. -/
def badStore : TData := ⟨"./db.json", Finmap.insert (str "k") (Value.string badString) ∅⟩

/-- A store whose only value is the Go integer `2 ^ 53 + 1`. -/
def bigIntStore : TData := ⟨"./db.json", Finmap.insert (str "a") (Value.int 9007199254740993) ∅⟩

/-- A file system in which `./afile` is a regular file, so that the path
`./afile/db.json` leads through a file that is not a directory: no file is
at that path, and every call on it fails with `ENOTDIR`. -/
def notDirFS : FS :=
  Function.update (oneFile "./afile" []) "./afile/db.json" (.denied .ENOTDIR)

/-- A store that holds numbers: `1.5` under the key `a`, and under the key
`b` the slice of `1e21`, the negative zero and `0.1`. -/
def numStore : TData :=
  ⟨"./db.json", Finmap.insert (str "b")
    (Value.array [.number json.huge, .number ⟨true, 0, -1074⟩,
      .number ⟨false, 7205759403792794, -56⟩])
    (Finmap.insert (str "a") (Value.number ⟨false, 3 * 2 ^ 51, -52⟩) ∅)⟩

/-! ## Lemmas on the map -/

theorem cmap_Get_of_lookup_some {m : GoMap} {k : Bytes} {v : Value}
    (h : m.lookup k = some v) : cmap.Get m k = (v, true) := by
  simp [cmap.Get, h]

theorem cmap_Get_of_lookup_none {m : GoMap} {k : Bytes}
    (h : m.lookup k = none) : cmap.Get m k = (.null, false) := by
  simp [cmap.Get, h]

theorem cmap_MSet_New (data : GoMap) : cmap.MSet cmap.New data = data := by
  simp [cmap.MSet, cmap.New]

theorem cmap_Get_Set_self (m : GoMap) (k : Bytes) (v : Value) :
    cmap.Get (cmap.Set m k v) k = (v, true) := by
  simp [cmap.Get, cmap.Set]

theorem cmap_Get_Set_of_ne (m : GoMap) {k k' : Bytes} (v : Value) (h : k' ≠ k) :
    cmap.Get (cmap.Set m k v) k' = cmap.Get m k' := by
  simp [cmap.Get, cmap.Set, Finmap.lookup_insert_of_ne _ h]

/-! ## Lemmas on `Init` -/

theorem Init_of_absent (J : JSON) (fs : FS) (p : String) (h : fs p = .absent) :
    Init J fs p = (.ok ⟨p, cmap.New⟩, fs) := by
  simp [Init, os.Stat, h, os.IsNotExist]

theorem Init_of_file (J : JSON) (fs : FS) (p : String) (c : Bytes) (h : fs p = .file c) :
    Init J fs p =
      (match J.Decode c with
        | .error e => .error e
        | .ok readData => .ok ⟨p, cmap.MSet cmap.New readData⟩, fs) := by
  simp only [Init, os.Stat, h, os.IsNotExist, os.IsExist, os.Open, decodeFile]
  cases J.Decode c <;> rfl

/-! ## Lemmas on the file system calls -/

theorem lock_ne (p : String) : p ++ ".lock" ≠ p := by
  intro h
  have := congrArg String.length h
  simp [String.length_append] at this
  exact absurd this (by decide)

theorem os.Create_of_not_denied (fs : FS) (p : String) (h : ∀ e, fs p ≠ .denied e) :
    os.Create fs p = ((some p, none), Function.update fs p (.file [])) := by
  unfold os.Create
  split
  · exact absurd ‹_› (h _)
  · rfl

theorem os.Create_of_denied (fs : FS) (p : String) (e : Errno) (h : fs p = .denied e) :
    os.Create fs p = ((none, some (.pathError "open" p e)), fs) := by
  simp [os.Create, h]

theorem os.Create_cases (fs : FS) (p : String) :
    (∃ e, fs p = .denied e ∧ os.Create fs p = ((none, some (.pathError "open" p e)), fs)) ∨
    ((∀ e, fs p ≠ .denied e) ∧
      os.Create fs p = ((some p, none), Function.update fs p (.file []))) := by
  cases h : fs p with
  | denied e => exact Or.inl ⟨e, rfl, os.Create_of_denied fs p e h⟩
  | absent =>
    have h1 : ∀ e, fs p ≠ .denied e := by simp [h]
    exact Or.inr ⟨by simp, os.Create_of_not_denied fs p h1⟩
  | file c =>
    have h1 : ∀ e, fs p ≠ .denied e := by simp [h]
    exact Or.inr ⟨by simp, os.Create_of_not_denied fs p h1⟩

theorem File_Write_nil (env : Env) (fs : FS) (b : Bytes) :
    File.Write env fs none b = ((0, some .errInvalid), fs) := rfl

theorem File_Write_file (env : Env) (fs : FS) (p : String) (old b : Bytes)
    (h : fs p = .file old) :
    File.Write env fs (some p) b =
      ((min (env.write p b).1 b.length,
        match (env.write p b).2 with
        | some e => some (.pathError "write" p e)
        | none => if min (env.write p b).1 b.length ≠ b.length then some .errShortWrite else none),
       Function.update fs p (.file (old ++ b.take (min (env.write p b).1 b.length)))) := by
  simp only [File.Write, h]

/-- The contract of `Write`: a count other than `len(b)` comes with an
error. -/
theorem File_Write_short (env : Env) (fs : FS) (f : File) (b : Bytes)
    (h : (File.Write env fs f b).1.1 ≠ b.length) : ∃ e, (File.Write env fs f b).1.2 = some e := by
  unfold File.Write at h ⊢
  split
  · exact ⟨_, rfl⟩
  · split
    · rename_i p old hold
      simp only [hold] at h
      simp only
      split
      · exact ⟨_, rfl⟩
      · rw [if_pos h]; exact ⟨_, rfl⟩
    · exact ⟨_, rfl⟩

theorem File_Write_ok (env : Env) (fs : FS) (f : File) (b : Bytes)
    (h : (File.Write env fs f b).1.2 = none) :
    ∃ p old, f = some p ∧ fs p = .file old ∧ (env.write p b).2 = none ∧
      b.length ≤ (env.write p b).1 ∧ (File.Write env fs f b).1.1 = b.length ∧
      (File.Write env fs f b).2 = Function.update fs p (.file (old ++ b)) := by
  cases f with
  | none => simp [File.Write] at h
  | some p =>
    cases hp : fs p with
    | absent => simp [File.Write, hp] at h
    | denied e => simp [File.Write, hp] at h
    | file old =>
      rw [File_Write_file env fs p old b hp] at h ⊢
      simp only at h ⊢
      cases hw : (env.write p b).2 with
      | some e => simp [hw] at h
      | none =>
        simp only [hw] at h
        have hlen : min (env.write p b).1 b.length = b.length := by
          by_contra hne
          simp [hne] at h
        refine ⟨p, old, rfl, hp, hw, ?_, hlen, ?_⟩
        · omega
        · rw [hlen, List.take_length]

theorem os.Remove_ok (env : Env) (fs : FS) (p : String) (h : (os.Remove env fs p).1 = none) :
    (∃ c, fs p = .file c) ∧ env.remove p = none ∧
      (os.Remove env fs p).2 = Function.update fs p .absent := by
  unfold os.Remove at h ⊢
  split at h
  · simp at h
  · simp at h
  · rename_i c hc
    split at h
    · simp at h
    · rename_i hr
      simp [hc, hr]

theorem os.Remove_file (env : Env) (fs : FS) (p : String) (c : Bytes) (h : fs p = .file c) :
    os.Remove env fs p =
      match env.remove p with
      | some e => (some (.pathError "remove" p e), fs)
      | none => (none, Function.update fs p .absent) := by
  simp only [os.Remove, h]

theorem update_lock_target (fs : FS) (p l : String) (hne : l ≠ p) (b : Bytes) :
    Function.update (Function.update (Function.update (Function.update fs l (.file [])) p
      (.file [])) p (.file ([] ++ b))) l .absent =
    Function.update (Function.update fs p (.file b)) l .absent := by
  funext q
  by_cases hq : q = l
  · subst hq; simp
  · by_cases hq2 : q = p
    · subst hq2; simp [Function.update_noteq hq]
    · simp [Function.update_noteq hq, Function.update_noteq hq2]

/-! ## Lemmas on `store` -/

theorem store_ok_spec (J : JSON) (env : Env) (d : TData) (fs fs1 : FS)
    (h : store J env d fs = (none, fs1)) :
    ∃ data, d.MarshalJSON J = .ok data ∧ (∀ e, fs d.filepath ≠ .denied e) ∧
      fs1 = Function.update (Function.update fs d.filepath (.file (data ++ [10])))
        (d.filepath ++ ".lock") .absent := by
  have hne := lock_ne d.filepath
  unfold store at h
  simp only at h
  split at h
  · simp at h
  · rename_i hlock
    rcases os.Create_cases fs (d.filepath ++ ".lock") with ⟨e, _, hc⟩ | ⟨_, hc⟩
    · rw [hc] at hlock; simp at hlock
    · rw [hc] at h
      simp only at h
      split at h
      · split at h <;> simp at h
      · split at h
        · simp at h
        · rename_i data hdata
          split at h
          · simp at h
          · rename_i hw
            obtain ⟨p, old, hf, hold, _, _, hnum, hfs⟩ := File_Write_ok _ _ _ _ hw
            rcases os.Create_cases (Function.update fs (d.filepath ++ ".lock") (.file []))
              d.filepath with ⟨e, _, hc2⟩ | ⟨hnd, hc2⟩
            · rw [hc2] at hf; simp at hf
            · rw [hc2] at hf hold hfs h
              simp only [Option.some.injEq] at hf
              subst hf
              simp only [Function.update_same, Node.file.injEq] at hold
              subst hold
              rw [hfs] at h
              split at h
              · simp at h
              · split at h
                · simp at h
                · rename_i hrm
                  obtain ⟨_, _, hfs2⟩ := os.Remove_ok _ _ _ hrm
                  simp only [Prod.mk.injEq, true_and] at h
                  refine ⟨data, hdata, ?_, ?_⟩
                  · intro e he
                    apply hnd e
                    rw [Function.update_noteq hne.symm, he]
                  · rw [← h, hfs2, update_lock_target fs _ _ hne]

theorem Init_of_denied_ENOENT (J : JSON) (fs : FS) (p : String) (h : fs p = .denied .ENOENT) :
    Init J fs p = (.ok ⟨p, cmap.New⟩, fs) := by
  simp [Init, os.Stat, h, os.IsNotExist]

theorem IsNotExist_Stat (fs : FS) (p : String) :
    os.IsNotExist (os.Stat fs p) = true ↔ (fs p = .absent ∨ fs p = .denied .ENOENT) := by
  unfold os.Stat
  cases h : fs p with
  | absent => simp [os.IsNotExist]
  | file c => simp [os.IsNotExist]
  | denied e => cases e <;> simp [os.IsNotExist]

theorem Init_fs (J : JSON) (fs : FS) (p : String) : (Init J fs p).2 = fs := by
  unfold Init
  simp only
  split
  · rfl
  · split
    · rfl
    · split
      · rfl
      · split <;> rfl

theorem Init_filepath (J : JSON) (fs : FS) (p : String) (d : TData)
    (h : (Init J fs p).1 = .ok d) : d.filepath = p := by
  unfold Init at h
  simp only at h
  split at h
  · simp only [Except.ok.injEq] at h; rw [← h]
  · split at h
    · simp at h
    · split at h
      · simp at h
      · split at h
        · simp at h
        · simp only [Except.ok.injEq] at h; rw [← h]

theorem TData_Get_eq (d : TData) (k : Bytes) : d.Get k = cmap.Get d.items k := rfl

theorem setAllIfAbsent_spec (kvs : List (Bytes × Value)) :
    ∀ d : TData, (kvs.map Prod.fst).Nodup → (∀ kv ∈ kvs, d.items.lookup kv.1 = none) →
      (setAllIfAbsent d kvs).2 = kvs.map (fun _ => true) ∧
      (∀ kv ∈ kvs, (setAllIfAbsent d kvs).1.Get kv.1 = (kv.2, true)) ∧
      (∀ k, k ∉ kvs.map Prod.fst → (setAllIfAbsent d kvs).1.Get k = d.Get k) := by
  induction kvs with
  | nil =>
    intro d _ _
    simp [setAllIfAbsent]
  | cons kv rest ih =>
    intro d hnd habs
    have hkv : d.items.lookup kv.1 = none := habs kv (List.mem_cons_self _ _)
    simp only [List.map_cons, List.nodup_cons] at hnd
    obtain ⟨hnotin, hnd'⟩ := hnd
    have hstep : d.SetIfAbsent kv.1 kv.2 = (⟨d.filepath, d.items.insert kv.1 kv.2⟩, true) := by
      simp [TData.SetIfAbsent, cmap.SetIfAbsent, hkv]
    have habs' : ∀ x ∈ rest, (d.SetIfAbsent kv.1 kv.2).1.items.lookup x.1 = none := by
      intro x hx
      have hne : x.1 ≠ kv.1 := by
        intro he
        exact hnotin (he ▸ List.mem_map_of_mem Prod.fst hx)
      rw [hstep]
      simp only
      rw [Finmap.lookup_insert_of_ne _ hne]
      exact habs x (List.mem_cons_of_mem _ hx)
    obtain ⟨h1, h2, h3⟩ := ih (d.SetIfAbsent kv.1 kv.2).1 hnd' habs'
    refine ⟨?_, ?_, ?_⟩
    · simp only [setAllIfAbsent, List.map_cons, h1]
      rw [hstep]
    · intro x hx
      simp only [setAllIfAbsent]
      rcases List.mem_cons.mp hx with hx | hx
      · subst hx
        rw [h3 _ hnotin, hstep]
        simp [TData.Get, cmap.Get]
      · exact h2 x hx
    · intro k hk
      simp only [List.map_cons, List.mem_cons, not_or] at hk
      simp only [setAllIfAbsent]
      rw [h3 k hk.2, hstep]
      simp [TData.Get, cmap.Get, Finmap.lookup_insert_of_ne _ hk.1]

theorem store_ok_file (J : JSON) (env : Env) (d : TData) (fs fs1 : FS)
    (h : store J env d fs = (none, fs1)) :
    ∃ data, d.MarshalJSON J = .ok data ∧ fs1 d.filepath = .file (data ++ [10]) ∧
      fs1 (d.filepath ++ ".lock") = .absent ∧
      (∀ q, q ≠ d.filepath → q ≠ d.filepath ++ ".lock" → fs1 q = fs q) := by
  obtain ⟨data, hdata, _, hfs⟩ := store_ok_spec J env d fs fs1 h
  have hne := lock_ne d.filepath
  refine ⟨data, hdata, ?_, ?_, ?_⟩
  · rw [hfs, Function.update_noteq hne.symm, Function.update_same]
  · rw [hfs, Function.update_same]
  · intro q h1 h2
    rw [hfs, Function.update_noteq h2, Function.update_noteq h1]

theorem store_lock_denied (J : JSON) (env : Env) (d : TData) (fs : FS) (e : Errno)
    (h : fs (d.filepath ++ ".lock") = .denied e) :
    store J env d fs = (some (.errorString ("creating lock file: "
      ++ (GoError.pathError "open" (d.filepath ++ ".lock") e).Error)), fs) := by
  simp [store, os.Create_of_denied fs _ e h]

theorem store_target_ENOENT (J : JSON) (env : Env) (d : TData) (fs : FS)
    (hl : ∀ e, fs (d.filepath ++ ".lock") ≠ .denied e)
    (hp : fs d.filepath = .denied .ENOENT) :
    (∃ msg, (store J env d fs).1 = some (.errorString msg)) ∧
    (store J env d fs).2 = (os.Remove env (Function.update fs (d.filepath ++ ".lock")
      (.file [])) (d.filepath ++ ".lock")).2 := by
  have hne := lock_ne d.filepath
  have hp1 : (Function.update fs (d.filepath ++ ".lock") (.file [])) d.filepath
      = .denied .ENOENT := by
    rw [Function.update_noteq hne.symm, hp]
  simp only [store, os.Create_of_not_denied fs _ hl, os.Create_of_denied _ _ _ hp1, os.IsNotExist]
  split <;> exact ⟨⟨_, rfl⟩, rfl⟩

theorem store_marshal_error (J : JSON) (env : Env) (d : TData) (fs : FS) (err : GoError)
    (hm : d.MarshalJSON J = .error err)
    (hl : ∀ e, fs (d.filepath ++ ".lock") ≠ .denied e)
    (hp : fs d.filepath ≠ .denied .ENOENT) :
    store J env d fs =
      (some (.errorString ("interpreting db to json: " ++ err.Error)),
        (os.Create (Function.update fs (d.filepath ++ ".lock") (.file [])) d.filepath).2) := by
  have hne := lock_ne d.filepath
  rcases os.Create_cases (Function.update fs (d.filepath ++ ".lock") (.file [])) d.filepath
    with ⟨e, he, hc⟩ | ⟨_, hc⟩
  · have hE : e ≠ .ENOENT := by
      intro h
      apply hp
      rw [← h, ← he, Function.update_noteq hne.symm]
    simp only [store, os.Create_of_not_denied fs _ hl, hc, hm]
    cases e <;> first | exact absurd rfl hE | rfl
  · simp only [store, os.Create_of_not_denied fs _ hl, hc, hm]

theorem store_error_is_errorString (J : JSON) (env : Env) (d : TData) (fs : FS) (e : GoError)
    (h : (store J env d fs).1 = some e) : ∃ msg, e = .errorString msg := by
  unfold store at h
  simp only at h
  split at h
  · simp at h; exact ⟨_, h.symm⟩
  · split at h
    · split at h <;> (simp at h; exact ⟨_, h.symm⟩)
    · split at h
      · simp at h; exact ⟨_, h.symm⟩
      · split at h
        · simp at h; exact ⟨_, h.symm⟩
        · split at h
          · simp at h; exact ⟨_, h.symm⟩
          · split at h
            · simp at h; exact ⟨_, h.symm⟩
            · simp at h

theorem store_ok_write (J : JSON) (env : Env) (d : TData) (fs : FS) (data : Bytes)
    (hm : d.MarshalJSON J = .ok data) (h : (store J env d fs).1 = none) :
    (File.Write env (os.Create (os.Create fs (d.filepath ++ ".lock")).2 d.filepath).2
      (os.Create (os.Create fs (d.filepath ++ ".lock")).2 d.filepath).1.1 (data ++ [10])).1.2
      = none := by
  unfold store at h
  simp only [hm] at h
  split at h
  · simp at h
  · split at h
    · split at h <;> simp at h
    · split at h
      · simp at h
      · rename_i hw
        exact hw

/-! ## Lemmas on the scheduler -/

theorem os.IsExist_store (J : JSON) (env : Env) (d : TData) (fs : FS) :
    os.IsExist (store J env d fs).1 = false := by
  cases h : (store J env d fs).1 with
  | none => rfl
  | some e =>
    obtain ⟨msg, hmsg⟩ := store_error_is_errorString J env d fs e h
    rw [hmsg]
    rfl

theorem step_tick (J : JSON) (env : Env) (p : String) (s : Sync) (items : GoMap)
    (h : s.state = .Running) :
    StartSync.step J env p s (.tick items) =
      some { s with
        fs := (store J env ⟨p, items⟩ s.fs).2
        flushes := s.flushes + 1
        sent := match (store J env ⟨p, items⟩ s.fs).1 with
          | some e => s.sent ++ [e]
          | none => s.sent } := by
  have hx := os.IsExist_store J env ⟨p, items⟩ s.fs
  unfold StartSync.step
  rw [h]
  simp only
  cases hs : (store J env ⟨p, items⟩ s.fs).1 with
  | none => rfl
  | some e =>
    rw [hs] at hx
    simp only [hx]

theorem step_stop (J : JSON) (env : Env) (p : String) (s : Sync) (h : s.state = .Running) :
    StartSync.step J env p s .stop = some { s with state := .Stopped, ticking := false } := by
  unfold StartSync.step
  rw [h]

theorem step_Stopped (J : JSON) (env : Env) (p : String) (s : Sync) (ev : Event)
    (h : s.state = .Stopped) : StartSync.step J env p s ev = none := by
  unfold StartSync.step
  rw [h]

theorem run_Stopped (J : JSON) (env : Env) (p : String) (s : Sync) (evs : List Event)
    (h : s.state = .Stopped) : StartSync.run J env p s evs = s := by
  cases evs with
  | nil => rfl
  | cons ev evs => simp [StartSync.run, step_Stopped J env p s ev h]

theorem run_append (J : JSON) (env : Env) (p : String) (evs1 evs2 : List Event) :
    ∀ s : Sync, (StartSync.run J env p s evs1).state = .Running →
      StartSync.run J env p s (evs1 ++ evs2) =
        StartSync.run J env p (StartSync.run J env p s evs1) evs2 := by
  induction evs1 with
  | nil => intro s _; rfl
  | cons ev evs ih =>
    intro s h
    simp only [StartSync.run, List.cons_append] at h ⊢
    cases hstep : StartSync.step J env p s ev with
    | some s1 =>
      rw [hstep] at h
      simp only at h ⊢
      exact ih s1 h
    | none =>
      rw [hstep] at h
      simp only at h ⊢
      cases hst : s.state with
      | Running => 
        cases ev with
        | stop => rw [step_stop J env p s hst] at hstep; cases hstep
        | tick items => rw [step_tick J env p s items hst] at hstep; cases hstep
      | Stopped => rw [hst] at h; cases h

theorem run_invariant (J : JSON) (env : Env) (p : String) (evs : List Event) :
    ∀ s : Sync, (s.state = .Stopped → s.ticking = false) →
      ((StartSync.run J env p s evs).state = .Stopped →
        (StartSync.run J env p s evs).ticking = false) := by
  induction evs with
  | nil => intro s h; exact h
  | cons ev evs ih =>
    intro s h
    simp only [StartSync.run]
    cases hst : s.state with
    | Stopped =>
      rw [step_Stopped J env p s ev hst]
      exact h
    | Running =>
      cases ev with
      | stop =>
        rw [step_stop J env p s hst]
        exact ih _ (fun _ => rfl)
      | tick items =>
        rw [step_tick J env p s items hst]
        apply ih
        intro h2
        rw [hst] at h2
        cases h2

theorem run_append_of_Stopped (J : JSON) (env : Env) (p : String) (evs1 evs2 : List Event) :
    ∀ s : Sync, (StartSync.run J env p s evs1).state = .Stopped →
      StartSync.run J env p s (evs1 ++ evs2) = StartSync.run J env p s evs1 := by
  induction evs1 with
  | nil =>
    intro s h
    exact run_Stopped J env p s evs2 h
  | cons ev evs ih =>
    intro s h
    simp only [StartSync.run, List.cons_append] at h ⊢
    cases hstep : StartSync.step J env p s ev with
    | some s1 =>
      rw [hstep] at h
      exact ih s1 h
    | none => rfl

theorem run_stop_final (J : JSON) (env : Env) (p : String) (s : Sync) (pre post : List Event) :
    (StartSync.run J env p s (pre ++ [.stop])).state = .Stopped ∧
    StartSync.run J env p s (pre ++ .stop :: post) =
      StartSync.run J env p s (pre ++ [.stop]) := by
  cases hst : (StartSync.run J env p s pre).state with
  | Stopped =>
    rw [run_append_of_Stopped J env p pre _ s hst, run_append_of_Stopped J env p pre _ s hst]
    exact ⟨hst, rfl⟩
  | Running =>
    rw [run_append J env p pre _ s hst, run_append J env p pre _ s hst]
    simp only [StartSync.run, step_stop J env p _ hst]
    exact ⟨trivial, run_Stopped J env p _ post rfl⟩

/-! ## The round trip of the codec -/

theorem toNat_byte (x : Nat) (h : x < 256) : (UInt8.ofNat x).toNat = x :=
  UInt8.toNat_ofNat_of_lt h

theorem utf8Head_utf8Char (c : Char) (rest : Bytes) :
    json.utf8Head (json.utf8Char c ++ rest) = (c.toNat, (json.utf8Char c).length) := by
  have hv := c.valid
  have hn : c.toNat < 55296 ∨ (57343 < c.toNat ∧ c.toNat < 1114112) := by
    rcases hv with h | ⟨h1, h2⟩
    · left; exact h
    · right; exact ⟨h1, h2⟩
  unfold json.utf8Char
  simp only
  generalize c.toNat = n at hn ⊢
  by_cases h1 : n < 128
  · simp only [h1, if_true, List.cons_append, List.nil_append, json.utf8Head,
      toNat_byte n (by omega), List.length_singleton]
  · by_cases h2 : n < 2048
    · have e1 := toNat_byte (192 + n / 64) (by omega)
      have e2 := toNat_byte (128 + n % 64) (by omega)
      simp only [h1, h2, if_true, if_false, List.cons_append, List.nil_append, json.utf8Head,
        json.isCont, e1, e2]
      have c1 : ¬ (192 + n / 64 < 128) := by omega
      have c2 : 194 ≤ 192 + n / 64 ∧ 192 + n / 64 < 224 := by omega
      have c3 : 128 ≤ 128 + n % 64 ∧ 128 + n % 64 < 192 := by omega
      simp only [c1, c2, c3, if_true, if_false, and_self, decide_True]
      simp
      omega
    · by_cases h3 : n < 65536
      · have e1 := toNat_byte (224 + n / 4096) (by omega)
        have e2 := toNat_byte (128 + n / 64 % 64) (by omega)
        have e3 := toNat_byte (128 + n % 64) (by omega)
        simp only [h1, h2, h3, if_true, if_false, List.cons_append, List.nil_append,
          json.utf8Head, json.isCont, e1, e2, e3]
        have c1 : ¬ (224 + n / 4096 < 128) := by omega
        have c2 : ¬ (194 ≤ 224 + n / 4096 ∧ 224 + n / 4096 < 224) := by omega
        have c3 : 224 ≤ 224 + n / 4096 ∧ 224 + n / 4096 < 240 := by omega
        have c4 : 128 ≤ 128 + n / 64 % 64 ∧ 128 + n / 64 % 64 < 192 := by omega
        have c5 : 128 ≤ 128 + n % 64 ∧ 128 + n % 64 < 192 := by omega
        have c6 : (224 + n / 4096 - 224) * 4096 + (128 + n / 64 % 64 - 128) * 64
            + (128 + n % 64 - 128) = n := by omega
        simp only [c1, c2, c3, c4, c5, c6, if_true, if_false, and_self, decide_True]
        have c7 : 2048 ≤ n ∧ ¬ (55296 ≤ n ∧ n < 57344) := by omega
        simp [c7]
      · have e1 := toNat_byte (240 + n / 262144) (by omega)
        have e2 := toNat_byte (128 + n / 4096 % 64) (by omega)
        have e3 := toNat_byte (128 + n / 64 % 64) (by omega)
        have e4 := toNat_byte (128 + n % 64) (by omega)
        simp only [h1, h2, h3, if_true, if_false, List.cons_append, List.nil_append,
          json.utf8Head, json.isCont, e1, e2, e3, e4]
        have c1 : ¬ (240 + n / 262144 < 128) := by omega
        have c2 : ¬ (194 ≤ 240 + n / 262144 ∧ 240 + n / 262144 < 224) := by omega
        have c3 : ¬ (224 ≤ 240 + n / 262144 ∧ 240 + n / 262144 < 240) := by omega
        have c3' : 240 ≤ 240 + n / 262144 ∧ 240 + n / 262144 < 245 := by omega
        have c4 : 128 ≤ 128 + n / 4096 % 64 ∧ 128 + n / 4096 % 64 < 192 := by omega
        have c5 : 128 ≤ 128 + n / 64 % 64 ∧ 128 + n / 64 % 64 < 192 := by omega
        have c5' : 128 ≤ 128 + n % 64 ∧ 128 + n % 64 < 192 := by omega
        have c6 : (240 + n / 262144 - 240) * 262144 + (128 + n / 4096 % 64 - 128) * 4096
            + (128 + n / 64 % 64 - 128) * 64 + (128 + n % 64 - 128) = n := by omega
        simp only [c1, c2, c3, c3', c4, c5, c5', c6, if_true, if_false, and_self, decide_True]
        have c7 : 65536 ≤ n ∧ n < 1114112 := by omega
        simp [c7]

theorem utf8Char_ne_nil (c : Char) : json.utf8Char c ≠ [] := by
  unfold json.utf8Char
  simp only
  split
  · simp
  · split
    · simp
    · split <;> simp

theorem utf8Decode_cons (fuel : Nat) (bs : Bytes) (h : bs ≠ []) :
    json.utf8Decode (fuel + 1) bs =
      Char.ofNat (json.utf8Head bs).1 :: json.utf8Decode fuel (bs.drop (json.utf8Head bs).2) := by
  cases bs with
  | nil => exact absurd rfl h
  | cons b bs => rfl

theorem utf8Decode_encode (cs : List Char) :
    ∀ fuel, cs.length ≤ fuel → json.utf8Decode fuel (json.utf8Encode cs) = cs := by
  induction cs with
  | nil =>
    intro fuel _
    cases fuel <;> rfl
  | cons c cs ih =>
    intro fuel hf
    cases fuel with
    | zero => simp at hf
    | succ f =>
      have hne : json.utf8Char c ++ json.utf8Encode cs ≠ [] := by
        simp [utf8Char_ne_nil]
      have : json.utf8Encode (c :: cs) = json.utf8Char c ++ json.utf8Encode cs := by
        simp [json.utf8Encode]
      rw [this, utf8Decode_cons f _ hne, utf8Head_utf8Char]
      simp only [List.drop_left, Char.ofNat_toNat]
      rw [ih f (by simpa using hf)]

theorem utf8Encode_length (cs : List Char) : cs.length ≤ (json.utf8Encode cs).length := by
  induction cs with
  | nil => simp [json.utf8Encode]
  | cons c cs ih =>
    have h1 : json.utf8Encode (c :: cs) = json.utf8Char c ++ json.utf8Encode cs := by
      simp [json.utf8Encode]
    have h2 : 1 ≤ (json.utf8Char c).length := by
      have := utf8Char_ne_nil c
      cases h : json.utf8Char c with
      | nil => exact absurd h this
      | cons _ _ => simp
    rw [h1, List.length_append, List.length_cons]
    omega

theorem utf8Encode_append (a b : List Char) :
    json.utf8Encode (a ++ b) = json.utf8Encode a ++ json.utf8Encode b := by
  simp [json.utf8Encode]

theorem utf8Char_length_FFFD (c : Char) (h : c.toNat = 65533) :
    (json.utf8Char c).length = 3 := by
  simp [json.utf8Char, h]

theorem utf8Runes_cons (fuel : Nat) (bs : Bytes) (h : bs ≠ []) :
    json.utf8Runes (fuel + 1) bs =
      (if json.utf8Head bs = (65533, 1) then none else some (Char.ofNat (json.utf8Head bs).1))
        :: json.utf8Runes fuel (bs.drop (json.utf8Head bs).2) := by
  cases bs with
  | nil => exact absurd rfl h
  | cons b bs => rfl

theorem utf8Runes_encode (cs : List Char) :
    ∀ fuel, cs.length ≤ fuel → json.utf8Runes fuel (json.utf8Encode cs) = cs.map some := by
  induction cs with
  | nil =>
    intro fuel _
    cases fuel <;> rfl
  | cons c cs ih =>
    intro fuel hf
    cases fuel with
    | zero => simp at hf
    | succ f =>
      have hne : json.utf8Char c ++ json.utf8Encode cs ≠ [] := by
        simp [utf8Char_ne_nil]
      have : json.utf8Encode (c :: cs) = json.utf8Char c ++ json.utf8Encode cs := by
        simp [json.utf8Encode]
      rw [this, utf8Runes_cons f _ hne, utf8Head_utf8Char]
      have hx : ¬ ((c.toNat, (json.utf8Char c).length) = (65533, 1)) := by
        intro h
        simp only [Prod.mk.injEq] at h
        have := utf8Char_length_FFFD c h.1
        omega
      simp only [hx, if_false, List.drop_left, Char.ofNat_toNat, List.map_cons]
      rw [ih f (by simpa using hf)]

theorem validUTF8_encode (cs : List Char) : json.validUTF8 (json.utf8Encode cs) = true := by
  simp only [json.validUTF8, decide_eq_true_eq]
  rw [utf8Decode_encode cs _ (utf8Encode_length cs)]

theorem validUTF8_spec (s : Bytes) (h : json.validUTF8 s = true) :
    json.utf8Encode (json.utf8Decode s.length s) = s := by
  simpa [json.validUTF8] using h

/-- The text of a Go string that is well-formed UTF-8: its characters, each
with its escape, between quotes. -/
theorem encodeString_valid (s : Bytes) (h : json.validUTF8 s = true) :
    json.encodeString s = Char.ofNat 34 ::
      ((json.utf8Decode s.length s).flatMap json.escapeChar ++ [Char.ofNat 34]) := by
  have hs := validUTF8_spec s h
  have hlen : (json.utf8Decode s.length s).length ≤ s.length := by
    conv_rhs => rw [← hs]
    exact utf8Encode_length _
  have hr : json.utf8Runes s.length s = (json.utf8Decode s.length s).map some := by
    conv_lhs => rw [← hs]
    have := utf8Runes_encode (json.utf8Decode s.length s) s.length hlen
    rw [hs] at this ⊢
    exact this
  simp only [json.encodeString, hr, List.flatMap_map]
  rfl

theorem hexVal_hexDigit (d : Nat) (h : d < 16) : json.hexVal (json.hexDigit d) = some d := by
  interval_cases d <;> rfl

theorem parseHex4_escape (n : Nat) (h : n < 65536) (rest : List Char) :
    json.parseHex4 (json.hexDigit (n / 4096 % 16) :: json.hexDigit (n / 256 % 16) ::
      json.hexDigit (n / 16 % 16) :: json.hexDigit (n % 16) :: rest) = some (n, rest) := by
  simp only [json.parseHex4, hexVal_hexDigit _ (Nat.mod_lt _ (by decide : 16 > 0))]
  congr 2
  omega

theorem toNat_ofNat_small (n : Nat) (h : n < 55296) : (Char.ofNat n).toNat = n := by
  have hv : n.isValidChar := Or.inl h
  simp [Char.ofNat, hv, Char.toNat, Char.ofNatAux]
  rfl

theorem char_eq_ofNat (c : Char) (n : Nat) (h : c.toNat = n) : c = Char.ofNat n := by
  rw [← h, Char.ofNat_toNat]

theorem parseChars_quote (fuel : Nat) (rest : List Char) :
    json.parseChars (fuel + 1) (Char.ofNat 34 :: rest) = some ([], rest) := by
  simp [json.parseChars, toNat_ofNat_small]

theorem parseChars_simple (fuel : Nat) (e x : Char) (cs : List Char)
    (h1 : e.toNat ≠ 117) (h2 : json.simpleEscape e = some x) :
    json.parseChars (fuel + 1) (Char.ofNat 92 :: e :: cs) =
      json.consChar x (json.parseChars fuel cs) := by
  simp [json.parseChars, toNat_ofNat_small, h1, h2]

theorem parseChars_escapeU (fuel : Nat) (n : Nat) (cs : List Char) (h : n < 55296) :
    json.parseChars (fuel + 1) (json.escapeU n ++ cs) =
      json.consChar (Char.ofNat n) (json.parseChars fuel cs) := by
  have hp := parseHex4_escape n (by omega) cs
  have h1 : ¬ (55296 ≤ n ∧ n < 56320) := by omega
  have h2 : ¬ (56320 ≤ n ∧ n < 57344) := by omega
  simp only [json.escapeU, List.cons_append, List.nil_append, json.parseChars]
  simp [toNat_ofNat_small, hp, h1, h2]

theorem parseChars_raw (fuel : Nat) (c : Char) (cs : List Char)
    (h1 : c.toNat ≠ 34) (h2 : c.toNat ≠ 92) (h3 : ¬ c.toNat < 32) :
    json.parseChars (fuel + 1) (c :: cs) = json.consChar c (json.parseChars fuel cs) := by
  simp [json.parseChars, h1, h2, h3]

theorem parseChars_escapeChar (c : Char) (fuel : Nat) (cs : List Char) :
    json.parseChars (fuel + 1) (json.escapeChar c ++ cs) =
      json.consChar c (json.parseChars fuel cs) := by
  unfold json.escapeChar
  simp only
  split
  · rename_i h
    rw [char_eq_ofNat c 34 h]
    exact parseChars_simple fuel _ _ cs (by decide) (by rfl)
  · split
    · rename_i h
      rw [char_eq_ofNat c 92 h]
      exact parseChars_simple fuel _ _ cs (by decide) (by rfl)
    · split
      · rename_i h
        rw [char_eq_ofNat c 8 h]
        exact parseChars_simple fuel _ _ cs (by decide) (by rfl)
      · split
        · rename_i h
          rw [char_eq_ofNat c 12 h]
          exact parseChars_simple fuel _ _ cs (by decide) (by rfl)
        · split
          · rename_i h
            rw [char_eq_ofNat c 10 h]
            exact parseChars_simple fuel _ _ cs (by decide) (by rfl)
          · split
            · rename_i h
              rw [char_eq_ofNat c 13 h]
              exact parseChars_simple fuel _ _ cs (by decide) (by rfl)
            · split
              · rename_i h
                rw [char_eq_ofNat c 9 h]
                exact parseChars_simple fuel _ _ cs (by decide) (by rfl)
              · split
                · rename_i h
                  have hlt : c.toNat < 55296 := by omega
                  have := parseChars_escapeU fuel c.toNat cs hlt
                  rw [Char.ofNat_toNat] at this
                  exact this
                · rename_i h1 h2 _ _ _ _ _ h6
                  exact parseChars_raw fuel c cs h1 h2 (by omega)

theorem escapeChar_length (c : Char) : 1 ≤ (json.escapeChar c).length := by
  unfold json.escapeChar
  simp only
  split
  · simp
  · split
    · simp
    · split
      · simp
      · split
        · simp
        · split
          · simp
          · split
            · simp
            · split
              · simp
              · split <;> simp [json.escapeU]

theorem parseChars_escaped (s : List Char) (rest : List Char) :
    ∀ fuel, s.length < fuel →
      json.parseChars fuel (s.flatMap json.escapeChar ++ Char.ofNat 34 :: rest) =
        some (s, rest) := by
  induction s with
  | nil =>
    intro fuel hf
    cases fuel with
    | zero => simp at hf
    | succ f => exact parseChars_quote f rest
  | cons c s ih =>
    intro fuel hf
    cases fuel with
    | zero => simp at hf
    | succ f =>
      simp only [List.flatMap_cons, List.append_assoc]
      rw [parseChars_escapeChar, ih f (by simpa using hf)]
      rfl

theorem flatMap_escape_length (s : List Char) :
    s.length ≤ (s.flatMap json.escapeChar).length := by
  induction s with
  | nil => simp
  | cons c s ih =>
    have := escapeChar_length c
    simp only [List.flatMap_cons, List.length_append, List.length_cons]
    omega

theorem skipWS_of_not_ws (c : Char) (cs : List Char) (h : json.isWS c = false) :
    json.skipWS (c :: cs) = c :: cs := by
  simp [json.skipWS, h]

theorem isWS_false_of (c : Char) (h : 33 ≤ c.toNat) : json.isWS c = false := by
  simp only [json.isWS, decide_eq_false_iff_not]
  omega

theorem parseValue_lit_null (fuel : Nat) (rest : List Char) :
    json.parseValue (fuel + 1) ("null".toList ++ rest) = some (.null, rest) := by
  simp [json.parseValue, json.skipWS, json.isWS, json.parseLit, List.isPrefixOf]
  rfl

theorem parseValue_lit_true (fuel : Nat) (rest : List Char) :
    json.parseValue (fuel + 1) ("true".toList ++ rest) = some (.bool true, rest) := by
  simp [json.parseValue, json.skipWS, json.isWS, json.parseLit, List.isPrefixOf]
  rfl

theorem parseValue_lit_false (fuel : Nat) (rest : List Char) :
    json.parseValue (fuel + 1) ("false".toList ++ rest) = some (.bool false, rest) := by
  simp [json.parseValue, json.skipWS, json.isWS, json.parseLit, List.isPrefixOf]
  rfl

theorem takeWhile_append_of (P : Char → Bool) (l rest : List Char)
    (hl : ∀ c ∈ l, P c = true) (hr : ∀ c ∈ rest.head?, P c = false) :
    (l ++ rest).takeWhile P = l ∧ (l ++ rest).dropWhile P = rest := by
  induction l with
  | nil =>
    cases rest with
    | nil => simp
    | cons c cs =>
      have := hr c (by simp)
      simp [List.takeWhile, List.dropWhile, this]
  | cons a l ih =>
    have ha := hl a (List.mem_cons_self _ _)
    have := ih (fun c hc => hl c (List.mem_cons_of_mem _ hc))
    simp [List.takeWhile, List.dropWhile, ha, this]

/-- The text of a number is made of the characters of number literals, and
`ParseFloat` reads it back as the number. -/
theorem floatText_spec (f : Float64) (t : List Char) (h : json.floatText f = some t) :
    (∀ c ∈ t, json.isNumChar c = true) ∧ strconv.ParseFloat t = some f := by
  have := List.find?_some h
  simp only [Bool.and_eq_true, List.all_eq_true, decide_eq_true_eq] at this
  exact this

theorem isNumChar_toNat (c : Char) (h : json.isNumChar c = true) :
    (48 ≤ c.toNat ∧ c.toNat ≤ 57) ∨ c.toNat = 43 ∨ c.toNat = 45 ∨ c.toNat = 46
      ∨ c.toNat = 101 ∨ c.toNat = 69 := by
  simpa [json.isNumChar, strconv.isDigit] using h

theorem floatText_head (f : Float64) (t : List Char) (h : json.floatText f = some t) :
    ∃ c cs, t = c :: cs ∧ ((48 ≤ c.toNat ∧ c.toNat ≤ 57) ∨ c.toNat = 43 ∨ c.toNat = 45
      ∨ c.toNat = 46 ∨ c.toNat = 101 ∨ c.toNat = 69) := by
  obtain ⟨h1, h2⟩ := floatText_spec f t h
  cases t with
  | nil =>
    have h0 : strconv.ParseFloat [] = none := rfl
    rw [h0] at h2
    cases h2
  | cons c cs => exact ⟨c, cs, rfl, isNumChar_toNat c (h1 c (List.mem_cons_self _ _))⟩

theorem parseValue_number (fuel : Nat) (f : Float64) (t rest : List Char)
    (h : json.floatText f = some t)
    (hrest : ∃ c cs, rest = c :: cs ∧ (c.toNat = 44 ∨ c.toNat = 93 ∨ c.toNat = 125)) :
    json.parseValue (fuel + 1) (t ++ rest) = some (.number f, rest) := by
  obtain ⟨h1, h2⟩ := floatText_spec f t h
  obtain ⟨c, cs, hc, hcv⟩ := floatText_head f t h
  obtain ⟨d, ds, hd, hdv⟩ := hrest
  have hr : ∀ x ∈ rest.head?, json.isNumChar x = false := by
    intro x hx
    rw [hd] at hx
    simp only [List.head?_cons, Option.mem_def, Option.some.injEq] at hx
    subst hx
    simp only [json.isNumChar, strconv.isDigit, Bool.or_eq_false_iff, decide_eq_false_iff_not]
    omega
  obtain ⟨ht, hdr⟩ := takeWhile_append_of json.isNumChar t rest h1 hr
  have hws : json.isWS c = false := isWS_false_of c (by omega)
  have e1 : ¬ c.toNat = 123 := by omega
  have e2 : ¬ c.toNat = 91 := by omega
  have e3 : ¬ c.toNat = 34 := by omega
  have e4 : ¬ c.toNat = 116 := by omega
  have e5 : ¬ c.toNat = 102 := by omega
  have e6 : ¬ c.toNat = 110 := by omega
  rw [hc] at ht hdr ⊢
  simp only [List.cons_append] at ht hdr ⊢
  unfold json.parseValue
  rw [skipWS_of_not_ws c _ hws]
  simp only [e1, e2, e3, e4, e5, e6, if_false, ht, hdr]
  rw [← hc, h2]
  rfl

theorem parseValue_string (fuel : Nat) (s : Bytes) (hs : json.validUTF8 s = true)
    (rest : List Char) :
    json.parseValue (fuel + 1) (json.encodeString s ++ rest) = some (.string s, rest) := by
  have hq : (Char.ofNat 34).toNat = 34 := toNat_ofNat_small 34 (by decide)
  have hws : json.isWS (Char.ofNat 34) = false := isWS_false_of _ (by omega)
  rw [encodeString_valid s hs]
  simp only [List.cons_append, List.append_assoc, List.singleton_append, List.nil_append]
  unfold json.parseValue
  rw [skipWS_of_not_ws _ _ hws]
  simp only [hq]
  have hlen : (json.utf8Decode s.length s).length <
      ((json.utf8Decode s.length s).flatMap json.escapeChar ++ Char.ofNat 34 :: rest).length
        + 1 := by
    have := flatMap_escape_length (json.utf8Decode s.length s)
    simp only [List.length_append, List.length_cons]
    omega
  rw [parseChars_escaped (json.utf8Decode s.length s) rest _ hlen]
  simp [validUTF8_spec s hs]

theorem parseElems_last (f : Nat) (X rest : List Char) (v : Value)
    (h : json.parseValue f X = some (v, Char.ofNat 93 :: rest)) :
    json.parseElems (f + 1) X = some ([v], rest) := by
  have hws : json.isWS (Char.ofNat 93) = false := by decide
  simp [json.parseElems, h, skipWS_of_not_ws _ _ hws, toNat_ofNat_small]

theorem parseElems_more (f : Nat) (X Y rest : List Char) (v : Value) (vs : List Value)
    (h1 : json.parseValue f X = some (v, Char.ofNat 44 :: Y))
    (h2 : json.parseElems f Y = some (vs, rest)) :
    json.parseElems (f + 1) X = some (v :: vs, rest) := by
  have hws : json.isWS (Char.ofNat 44) = false := by decide
  simp [json.parseElems, h1, h2, skipWS_of_not_ws _ _ hws, toNat_ofNat_small]

theorem parseValue_array_nil (f : Nat) (rest : List Char) :
    json.parseValue (f + 1) (Char.ofNat 91 :: Char.ofNat 93 :: rest) =
      some (.array [], rest) := by
  have h1 : json.isWS (Char.ofNat 91) = false := by decide
  have h2 : json.isWS (Char.ofNat 93) = false := by decide
  simp [json.parseValue, skipWS_of_not_ws _ _ h1, skipWS_of_not_ws _ _ h2, toNat_ofNat_small]

theorem parseValue_array_cons (f : Nat) (c : Char) (cs r : List Char) (vs : List Value)
    (hc1 : 33 ≤ c.toNat) (hc2 : c.toNat ≠ 93)
    (h : json.parseElems f (c :: cs) = some (vs, r)) :
    json.parseValue (f + 1) (Char.ofNat 91 :: c :: cs) = some (.array vs, r) := by
  have h1 : json.isWS (Char.ofNat 91) = false := by decide
  have h2 : json.isWS c = false := isWS_false_of c hc1
  simp [json.parseValue, skipWS_of_not_ws _ _ h1, skipWS_of_not_ws _ _ h2, toNat_ofNat_small,
    hc2, h]

theorem parseValue_object_nil (f : Nat) (rest : List Char) :
    json.parseValue (f + 1) (Char.ofNat 123 :: Char.ofNat 125 :: rest) =
      some (.object [], rest) := by
  have h1 : json.isWS (Char.ofNat 123) = false := by decide
  have h2 : json.isWS (Char.ofNat 125) = false := by decide
  simp [json.parseValue, skipWS_of_not_ws _ _ h1, skipWS_of_not_ws _ _ h2, toNat_ofNat_small]

theorem parseValue_object_cons (f : Nat) (c : Char) (cs r : List Char)
    (kvs : List (Bytes × Value))
    (hc1 : 33 ≤ c.toNat) (hc2 : c.toNat ≠ 125)
    (h : json.parseMembers f (c :: cs) = some (kvs, r)) :
    json.parseValue (f + 1) (Char.ofNat 123 :: c :: cs) =
      some (.object (json.putMembers kvs), r) := by
  have h1 : json.isWS (Char.ofNat 123) = false := by decide
  have h2 : json.isWS c = false := isWS_false_of c hc1
  simp [json.parseValue, skipWS_of_not_ws _ _ h1, skipWS_of_not_ws _ _ h2, toNat_ofNat_small,
    hc2, h]

theorem parseMembers_key (f : Nat) (k : Bytes) (hk : json.validUTF8 k = true) (X : List Char) :
    json.parseMembers (f + 1) (json.encodeString k ++ Char.ofNat 58 :: X) =
      match json.parseValue f X with
      | none => none
      | some (v, r3) =>
        match json.skipWS r3 with
        | [] => none
        | c3 :: r4 =>
          if c3.toNat = 44 then
            match json.parseMembers f r4 with
            | some (kvs, r5) => some ((k, v) :: kvs, r5)
            | none => none
          else if c3.toNat = 125 then some ([(k, v)], r4)
          else none := by
  have hq : (Char.ofNat 34).toNat = 34 := toNat_ofNat_small 34 (by decide)
  have hws : json.isWS (Char.ofNat 34) = false := by decide
  have hws2 : json.isWS (Char.ofNat 58) = false := by decide
  rw [encodeString_valid k hk]
  simp only [List.cons_append, List.append_assoc, List.singleton_append, List.nil_append]
  have hlen : (json.utf8Decode k.length k).length <
      ((json.utf8Decode k.length k).flatMap json.escapeChar
        ++ Char.ofNat 34 :: Char.ofNat 58 :: X).length + 1 := by
    have := flatMap_escape_length (json.utf8Decode k.length k)
    simp only [List.length_append, List.length_cons]
    omega
  rw [json.parseMembers, skipWS_of_not_ws _ _ hws]
  simp only [hq, if_true]
  rw [parseChars_escaped (json.utf8Decode k.length k) _ _ hlen]
  simp only [skipWS_of_not_ws _ _ hws2, toNat_ofNat_small 58 (by decide), if_true,
    validUTF8_spec k hk]

theorem parseMembers_last (f : Nat) (k : Bytes) (hk : json.validUTF8 k = true)
    (X rest : List Char) (v : Value)
    (h : json.parseValue f X = some (v, Char.ofNat 125 :: rest)) :
    json.parseMembers (f + 1) (json.encodeString k ++ Char.ofNat 58 :: X) =
      some ([(k, v)], rest) := by
  have hws : json.isWS (Char.ofNat 125) = false := by decide
  rw [parseMembers_key f k hk, h]
  simp [skipWS_of_not_ws _ _ hws, toNat_ofNat_small]

theorem parseMembers_more (f : Nat) (k : Bytes) (hk : json.validUTF8 k = true)
    (X Y rest : List Char) (v : Value)
    (kvs : List (Bytes × Value))
    (h1 : json.parseValue f X = some (v, Char.ofNat 44 :: Y))
    (h2 : json.parseMembers f Y = some (kvs, rest)) :
    json.parseMembers (f + 1) (json.encodeString k ++ Char.ofNat 58 :: X) =
      some ((k, v) :: kvs, rest) := by
  have hws : json.isWS (Char.ofNat 44) = false := by decide
  rw [parseMembers_key f k hk, h1]
  simp [skipWS_of_not_ws _ _ hws, toNat_ofNat_small, h2]

theorem textValue_number (f : Float64) (hs : json.serializable (.number f) = true) :
    ∃ t, json.floatText f = some t ∧ json.textValue (.number f) = t := by
  simp only [json.serializable] at hs
  cases h : json.floatText f with
  | none => simp [h] at hs
  | some t => exact ⟨t, rfl, by simp [json.textValue, h]⟩

theorem textValue_head (v : Value) (hn : json.Normal v) (hs : json.serializable v = true) :
    ∃ c cs, json.textValue v = c :: cs ∧ 33 ≤ c.toNat ∧ c.toNat ≠ 93 ∧ c.toNat ≠ 125 := by
  cases v with
  | null => exact ⟨_, _, rfl, by decide, by decide, by decide⟩
  | bool b => cases b <;> exact ⟨_, _, rfl, by decide, by decide, by decide⟩
  | number f =>
    obtain ⟨t, h1, h2⟩ := textValue_number f hs
    obtain ⟨c, cs, h, hc⟩ := floatText_head f t h1
    exact ⟨c, cs, by rw [h2, h], by omega, by omega, by omega⟩
  | int n => simp [json.Normal] at hn
  | string s => exact ⟨_, _, rfl, by decide, by decide, by decide⟩
  | array xs => exact ⟨_, _, by simp [json.textValue]; exact ⟨rfl, rfl⟩, by decide, by decide, by decide⟩
  | object kvs => exact ⟨_, _, by simp [json.textValue]; exact ⟨rfl, rfl⟩, by decide, by decide, by decide⟩
  | unsupported => simp [json.Normal] at hn

theorem encodeString_length (k : Bytes) : 2 ≤ (json.encodeString k).length := by
  simp [json.encodeString]

theorem joinElems_cons_cons (b b' : List Char) (bs : List (List Char)) :
    json.joinElems (b :: b' :: bs) = b ++ Char.ofNat 44 :: json.joinElems (b' :: bs) := rfl

theorem joinMembers_cons_cons (kv kv' : Bytes × List Char) (ms : List (Bytes × List Char)) :
    json.joinMembers (kv :: kv' :: ms) =
      json.encodeString kv.1 ++ Char.ofNat 58 :: (kv.2 ++ Char.ofNat 44 ::
        json.joinMembers (kv' :: ms)) := rfl

theorem insertMember_sorted (kvs : List (Bytes × Value))
    (h : (kvs.map Prod.fst).Pairwise json.keyLT) :
    (json.textMembers kvs).foldr json.insertMember [] = json.textMembers kvs := by
  induction kvs with
  | nil => rfl
  | cons kv kvs ih =>
    obtain ⟨k, v⟩ := kv
    simp only [List.map_cons, List.pairwise_cons] at h
    simp only [json.textMembers, List.foldr_cons, ih h.2]
    cases kvs with
    | nil => rfl
    | cons kv' kvs' =>
      obtain ⟨k', v'⟩ := kv'
      have hle : json.keyLE k k' := (h.1 k' (by simp)).1
      simp [json.textMembers, json.insertMember, hle]

theorem putMember_append (k : Bytes) (v : Value) (acc : List (Bytes × Value))
    (h : ∀ x ∈ acc, json.keyLT x.1 k) : json.putMember k v acc = acc ++ [(k, v)] := by
  induction acc with
  | nil => rfl
  | cons x acc ih =>
    have hx := h x (List.mem_cons_self _ _)
    have h1 : ¬ k = x.1 := fun e => hx.2 e.symm
    have h2 : ¬ json.keyLE k x.1 := fun e => hx.2 (antisymm hx.1 e)
    simp only [json.putMember, h1, h2, if_false, List.cons_append]
    rw [ih (fun y hy => h y (List.mem_cons_of_mem _ hy))]

theorem keyLT_trans {a b c : Bytes} (h1 : json.keyLT a b) (h2 : json.keyLT b c) :
    json.keyLT a c := by
  refine ⟨IsTrans.trans _ _ _ h1.1 h2.1, ?_⟩
  intro e
  subst e
  exact h1.2 (antisymm h1.1 h2.1)

theorem foldl_putMember (kvs : List (Bytes × Value)) :
    ∀ acc : List (Bytes × Value), (kvs.map Prod.fst).Pairwise json.keyLT →
      (∀ x ∈ acc, ∀ y ∈ kvs, json.keyLT x.1 y.1) →
      kvs.foldl (fun acc kv => json.putMember kv.1 kv.2 acc) acc = acc ++ kvs := by
  induction kvs with
  | nil => intro acc _ _; simp
  | cons kv kvs ih =>
    intro acc hs hacc
    simp only [List.map_cons, List.pairwise_cons] at hs
    simp only [List.foldl_cons]
    rw [putMember_append kv.1 kv.2 acc (fun x hx => hacc x hx kv (List.mem_cons_self _ _))]
    rw [ih _ hs.2]
    · simp
    · intro x hx y hy
      rcases List.mem_append.mp hx with hx | hx
      · exact hacc x hx y (List.mem_cons_of_mem _ hy)
      · simp only [List.mem_singleton] at hx
        subst hx
        exact hs.1 y.1 (List.mem_map_of_mem Prod.fst hy)

theorem putMembers_sorted (kvs : List (Bytes × Value))
    (h : (kvs.map Prod.fst).Pairwise json.keyLT) : json.putMembers kvs = kvs := by
  have := foldl_putMember kvs [] h (fun x hx => by simp at hx)
  simpa [json.putMembers] using this

theorem serializableElems_cons (x : Value) (xs : List Value)
    (h : json.serializableElems (x :: xs) = true) :
    json.serializable x = true ∧ json.serializableElems xs = true := by
  simpa [json.serializableElems] using h

theorem serializableMembers_cons (k : Bytes) (x : Value) (xs : List (Bytes × Value))
    (h : json.serializableMembers ((k, x) :: xs) = true) :
    json.serializable x = true ∧ json.serializableMembers xs = true := by
  simpa [json.serializableMembers] using h

mutual
theorem parseValue_text : (v : Value) → json.Normal v → json.serializable v = true →
    ∀ (fuel : Nat) (rest : List Char),
    (json.textValue v).length ≤ fuel →
    (∃ c cs, rest = c :: cs ∧ (c.toNat = 44 ∨ c.toNat = 93 ∨ c.toNat = 125)) →
    json.parseValue fuel (json.textValue v ++ rest) = some (v, rest)
  | .null, _, _, fuel, rest, hf, _ => by
    cases fuel with
    | zero => simp [json.textValue] at hf
    | succ f => exact parseValue_lit_null f rest
  | .bool true, _, _, fuel, rest, hf, _ => by
    cases fuel with
    | zero => simp [json.textValue] at hf
    | succ f => exact parseValue_lit_true f rest
  | .bool false, _, _, fuel, rest, hf, _ => by
    cases fuel with
    | zero => simp [json.textValue] at hf
    | succ f => exact parseValue_lit_false f rest
  | .number x, _, hs, fuel, rest, hf, hrest => by
    obtain ⟨t, h1, h2⟩ := textValue_number x hs
    rw [h2] at hf ⊢
    cases fuel with
    | zero =>
      obtain ⟨c, cs, h, _⟩ := floatText_head x t h1
      simp [h] at hf
    | succ f => exact parseValue_number f x t rest h1 hrest
  | .string s, hn, _, fuel, rest, hf, _ => by
    cases fuel with
    | zero => simp [json.textValue, json.encodeString] at hf
    | succ f => exact parseValue_string f s (by simpa [json.Normal] using hn) rest
  | .int _, hn, _, _, _, _, _ => by simp [json.Normal] at hn
  | .unsupported, hn, _, _, _, _, _ => by simp [json.Normal] at hn
  | .array [], _, _, fuel, rest, hf, _ => by
    cases fuel with
    | zero => simp [json.textValue] at hf
    | succ f => exact parseValue_array_nil f rest
  | .array (x :: xs), hn, hs, fuel, rest, hf, _ => by
    cases fuel with
    | zero => simp [json.textValue] at hf
    | succ f =>
      have hn' : json.NormalElems (x :: xs) := by simpa [json.Normal] using hn
      have hs' : json.serializableElems (x :: xs) = true := by
        simpa [json.serializable] using hs
      have hlen : (json.joinElems (json.textElems (x :: xs))).length + 1 ≤ f := by
        simp only [json.textValue, List.length_cons, List.length_append, List.length_nil] at hf
        omega
      have hp := parseElems_text (x :: xs) (by simp) hn' hs' f rest hlen
      obtain ⟨c, cs, hc, hc1, hc2, _⟩ :=
        textValue_head x hn'.1 (serializableElems_cons x xs hs').1
      have hj : ∃ cs', json.joinElems (json.textElems (x :: xs)) = c :: cs' := by
        cases xs with
        | nil => exact ⟨cs, by simp [json.textElems, json.joinElems, hc]⟩
        | cons y ys =>
          exact ⟨_, by simp only [json.textElems, joinElems_cons_cons, hc, List.cons_append]; rfl⟩
      obtain ⟨cs', hj⟩ := hj
      simp only [json.textValue, List.cons_append, List.append_assoc, List.singleton_append]
      rw [hj] at hp ⊢
      exact parseValue_array_cons f c _ rest (x :: xs) hc1 hc2 hp
  | .object [], _, _, fuel, rest, hf, _ => by
    cases fuel with
    | zero => simp [json.textValue] at hf
    | succ f => exact parseValue_object_nil f rest
  | .object (kv :: kvs), hn, hs, fuel, rest, hf, _ => by
    cases fuel with
    | zero => simp [json.textValue] at hf
    | succ f =>
      have hn' : json.NormalMembers (kv :: kvs) ∧
          ((kv :: kvs).map Prod.fst).Pairwise json.keyLT := by
        simpa [json.Normal] using hn
      have hs' : json.serializableMembers (kv :: kvs) = true := by
        simpa [json.serializable] using hs
      have hsort := insertMember_sorted (kv :: kvs) hn'.2
      have hlen : (json.joinMembers (json.textMembers (kv :: kvs))).length + 1 ≤ f := by
        simp only [json.textValue, hsort, List.length_cons, List.length_append,
          List.length_nil] at hf
        omega
      have hp := parseMembers_text (kv :: kvs) (by simp) hn'.1 hs' f rest hlen
      have hj : ∃ cs', json.joinMembers (json.textMembers (kv :: kvs)) = Char.ofNat 34 :: cs' := by
        obtain ⟨k, v⟩ := kv
        cases kvs with
        | nil =>
          exact ⟨_, by simp only [json.textMembers, json.joinMembers, json.encodeString,
            List.cons_append]; rfl⟩
        | cons y ys =>
          obtain ⟨k', v'⟩ := y
          exact ⟨_, by simp only [json.textMembers, joinMembers_cons_cons, json.encodeString,
            List.cons_append]; rfl⟩
      obtain ⟨cs', hj⟩ := hj
      simp only [json.textValue, hsort, List.cons_append, List.append_assoc,
        List.singleton_append]
      rw [hj] at hp ⊢
      have := parseValue_object_cons f (Char.ofNat 34) _ rest (kv :: kvs) (by decide) (by decide) hp
      rw [putMembers_sorted _ hn'.2] at this
      exact this
theorem parseElems_text : (vs : List Value) → vs ≠ [] → json.NormalElems vs →
    json.serializableElems vs = true →
    ∀ (fuel : Nat) (rest : List Char),
    (json.joinElems (json.textElems vs)).length + 1 ≤ fuel →
    json.parseElems fuel (json.joinElems (json.textElems vs) ++ Char.ofNat 93 :: rest) =
      some (vs, rest)
  | [], h, _, _, _, _, _ => absurd rfl h
  | [v], _, hn, hs, fuel, rest, hf => by
    cases fuel with
    | zero => simp at hf
    | succ f =>
      simp only [json.textElems, json.joinElems] at hf ⊢
      apply parseElems_last
      exact parseValue_text v hn.1 (serializableElems_cons v [] hs).1 f _ (by omega)
        ⟨_, _, rfl, Or.inr (Or.inl (by decide))⟩
  | v :: v' :: vs, _, hn, hs, fuel, rest, hf => by
    cases fuel with
    | zero => simp at hf
    | succ f =>
      have e : json.textElems (v :: v' :: vs) = json.textValue v :: json.textElems (v' :: vs) := by
        simp [json.textElems]
      have e2 : json.textElems (v' :: vs) = json.textValue v' :: json.textElems vs := by
        simp [json.textElems]
      rw [e, e2, joinElems_cons_cons, ← e2] at hf ⊢
      simp only [List.length_append, List.length_cons] at hf
      simp only [List.append_assoc, List.cons_append]
      apply parseElems_more f _ _ rest v (v' :: vs)
      · exact parseValue_text v hn.1 (serializableElems_cons v _ hs).1 f _ (by omega)
          ⟨_, _, rfl, Or.inl (by decide)⟩
      · exact parseElems_text (v' :: vs) (by simp) hn.2 (serializableElems_cons v _ hs).2 f rest
          (by omega)
theorem parseMembers_text : (kvs : List (Bytes × Value)) → kvs ≠ [] → json.NormalMembers kvs →
    json.serializableMembers kvs = true →
    ∀ (fuel : Nat) (rest : List Char),
    (json.joinMembers (json.textMembers kvs)).length + 1 ≤ fuel →
    json.parseMembers fuel (json.joinMembers (json.textMembers kvs) ++ Char.ofNat 125 :: rest) =
      some (kvs, rest)
  | [], h, _, _, _, _, _ => absurd rfl h
  | [(k, v)], _, hn, hs, fuel, rest, hf => by
    cases fuel with
    | zero => simp at hf
    | succ f =>
      simp only [json.textMembers, json.joinMembers, List.length_append, List.length_cons] at hf
      simp only [json.textMembers, json.joinMembers, List.append_assoc, List.cons_append]
      apply parseMembers_last f k hn.1.1
      exact parseValue_text v hn.1.2 (serializableMembers_cons k v [] hs).1 f _ (by omega)
        ⟨_, _, rfl, Or.inr (Or.inr (by decide))⟩
  | (k, v) :: kv' :: kvs, _, hn, hs, fuel, rest, hf => by
    cases fuel with
    | zero => simp at hf
    | succ f =>
      have e : json.textMembers ((k, v) :: kv' :: kvs) =
          (k, json.textValue v) :: json.textMembers (kv' :: kvs) := by
        simp [json.textMembers]
      have e2 : ∃ y ys, json.textMembers (kv' :: kvs) = y :: ys := by
        obtain ⟨k', v'⟩ := kv'
        exact ⟨(k', json.textValue v'), json.textMembers kvs, by simp [json.textMembers]⟩
      obtain ⟨y, ys, e2⟩ := e2
      rw [e, e2, joinMembers_cons_cons, ← e2] at hf ⊢
      simp only [List.length_append, List.length_cons] at hf
      simp only [List.append_assoc, List.cons_append]
      apply parseMembers_more f k hn.1.1 _ _ rest v (kv' :: kvs)
      · exact parseValue_text v hn.1.2 (serializableMembers_cons k v _ hs).1 f _ (by omega)
          ⟨_, _, rfl, Or.inl (by decide)⟩
      · exact parseMembers_text (kv' :: kvs) (by simp) hn.2 (serializableMembers_cons k v _ hs).2
          f rest (by omega)
end

theorem parseValue_object_top (kvs : List (Bytes × Value)) (hn : json.Normal (.object kvs))
    (hs : json.serializableMembers kvs = true)
    (fuel : Nat) (rest : List Char) (hf : (json.textValue (.object kvs)).length ≤ fuel) :
    json.parseValue fuel (json.textValue (.object kvs) ++ rest) = some (.object kvs, rest) := by
  cases fuel with
  | zero => simp [json.textValue] at hf
  | succ f =>
    cases kvs with
    | nil => exact parseValue_object_nil f rest
    | cons kv kvs =>
      have hn' : json.NormalMembers (kv :: kvs) ∧
          ((kv :: kvs).map Prod.fst).Pairwise json.keyLT := by
        simpa [json.Normal] using hn
      have hsort := insertMember_sorted (kv :: kvs) hn'.2
      have hlen : (json.joinMembers (json.textMembers (kv :: kvs))).length + 1 ≤ f := by
        simp only [json.textValue, hsort, List.length_cons, List.length_append,
          List.length_nil] at hf
        omega
      have hp := parseMembers_text (kv :: kvs) (by simp) hn'.1 hs f rest hlen
      have hj : ∃ cs', json.joinMembers (json.textMembers (kv :: kvs)) = Char.ofNat 34 :: cs' := by
        obtain ⟨k, v⟩ := kv
        cases kvs with
        | nil =>
          exact ⟨_, by simp only [json.textMembers, json.joinMembers, json.encodeString,
            List.cons_append]; rfl⟩
        | cons y ys =>
          obtain ⟨k', v'⟩ := y
          exact ⟨_, by simp only [json.textMembers, joinMembers_cons_cons, json.encodeString,
            List.cons_append]; rfl⟩
      obtain ⟨cs', hj⟩ := hj
      simp only [json.textValue, hsort, List.cons_append, List.append_assoc,
        List.singleton_append]
      rw [hj] at hp ⊢
      have := parseValue_object_cons f (Char.ofNat 34) _ rest (kv :: kvs) (by decide) (by decide) hp
      rw [putMembers_sorted _ hn'.2] at this
      exact this

theorem sortedKeys_perm (m : GoMap) :
    ((json.sortedKeys m : List Bytes) : Multiset Bytes) = m.keys.val := by
  unfold json.sortedKeys
  generalize m.keys.val = s
  induction s using Quotient.inductionOn with
  | _ l => exact Quotient.sound (List.perm_insertionSort json.keyLE l)

theorem mem_sortedKeys (m : GoMap) (k : Bytes) : k ∈ json.sortedKeys m ↔ k ∈ m := by
  rw [← Finmap.mem_keys, ← Finset.mem_val, ← sortedKeys_perm]
  rfl

theorem sortedKeys_nodup (m : GoMap) : (json.sortedKeys m).Nodup := by
  have h := m.keys.nodup
  rw [← sortedKeys_perm] at h
  exact h

theorem sortedKeys_sorted (m : GoMap) : (json.sortedKeys m).Pairwise json.keyLE := by
  unfold json.sortedKeys
  generalize m.keys.val = s
  induction s using Quotient.inductionOn with
  | _ l => exact List.sorted_insertionSort json.keyLE l

theorem sortedKeys_strict (m : GoMap) : (json.sortedKeys m).Pairwise json.keyLT := by
  have h1 := sortedKeys_sorted m
  have h2 := sortedKeys_nodup m
  rw [List.Nodup] at h2
  exact (h1.and h2).imp (fun h => ⟨h.1, h.2⟩)

theorem members_keys (m : GoMap) : (json.members m).map Prod.fst = json.sortedKeys m := by
  simp [json.members, List.map_map, Function.comp_def]

theorem lookup_foldl_insert_of_not_mem (kvs : List (Bytes × Value)) (k : Bytes) :
    ∀ acc : GoMap, k ∉ kvs.map Prod.fst →
      (kvs.foldl (fun m kv => m.insert kv.1 kv.2) acc).lookup k = acc.lookup k := by
  induction kvs with
  | nil => intro acc _; rfl
  | cons kv kvs ih =>
    intro acc h
    simp only [List.map_cons, List.mem_cons, not_or] at h
    simp only [List.foldl_cons]
    rw [ih _ h.2, Finmap.lookup_insert_of_ne _ h.1]

theorem lookup_foldl_insert_of_mem (kvs : List (Bytes × Value)) (k : Bytes) (v : Value) :
    ∀ acc : GoMap, (kvs.map Prod.fst).Nodup → (k, v) ∈ kvs →
      (kvs.foldl (fun m kv => m.insert kv.1 kv.2) acc).lookup k = some v := by
  induction kvs with
  | nil => intro acc _ h; simp at h
  | cons kv kvs ih =>
    intro acc hnd h
    simp only [List.map_cons, List.nodup_cons] at hnd
    simp only [List.foldl_cons]
    rcases List.mem_cons.mp h with h | h
    · subst h
      rw [lookup_foldl_insert_of_not_mem kvs k _ hnd.1, Finmap.lookup_insert]
    · exact ih _ hnd.2 h

theorem lookup_foldl_insert_some (kvs : List (Bytes × Value)) (k : Bytes) (v : Value) :
    ∀ acc : GoMap, (kvs.foldl (fun m kv => m.insert kv.1 kv.2) acc).lookup k = some v →
      (k, v) ∈ kvs ∨ acc.lookup k = some v := by
  induction kvs with
  | nil => intro acc h; exact Or.inr h
  | cons kv kvs ih =>
    intro acc h
    simp only [List.foldl_cons] at h
    rcases ih _ h with hx | h'
    · exact Or.inl (List.mem_cons_of_mem _ hx)
    · by_cases hk : k = kv.1
      · subst hk
        rw [Finmap.lookup_insert] at h'
        have : kv.2 = v := Option.some.inj h'
        exact Or.inl (this ▸ List.mem_cons_self _ _)
      · rw [Finmap.lookup_insert_of_ne _ hk] at h'
        exact Or.inr h'

theorem toMap_members (m : GoMap) : json.toMap (json.members m) = m := by
  apply Finmap.ext_lookup
  intro k
  unfold json.toMap
  by_cases hk : k ∈ m
  · obtain ⟨v, hv⟩ := Finmap.mem_iff.mp hk
    rw [hv]
    apply lookup_foldl_insert_of_mem
    · rw [members_keys]; exact sortedKeys_nodup m
    · simp only [json.members, List.mem_map]
      exact ⟨k, (mem_sortedKeys m k).mpr hk, by simp [hv]⟩
  · rw [lookup_foldl_insert_of_not_mem]
    · simp [Finmap.lookup_eq_none.mpr hk]
    · rw [members_keys, mem_sortedKeys]
      exact hk

theorem NormalMembers_iff (kvs : List (Bytes × Value)) :
    json.NormalMembers kvs ↔ ∀ kv ∈ kvs, json.validUTF8 kv.1 = true ∧ json.Normal kv.2 := by
  induction kvs with
  | nil => simp [json.NormalMembers]
  | cons kv kvs ih =>
    obtain ⟨k, v⟩ := kv
    simp [json.NormalMembers, ih]

theorem NormalMembers_members (m : GoMap) (h : json.NormalMap m) :
    json.NormalMembers (json.members m) := by
  rw [NormalMembers_iff]
  intro kv hkv
  simp only [json.members, List.mem_map] at hkv
  obtain ⟨k, hk, rfl⟩ := hkv
  obtain ⟨v, hv⟩ := Finmap.mem_iff.mp ((mem_sortedKeys m k).mp hk)
  simp only [hv, Option.getD_some]
  exact h k v hv

theorem utf8Char_newline : json.utf8Char (Char.ofNat 10) = [10] := by decide

/-- What `Marshal` wrote is decoded to the map it was given, with or without
the newline that `store` appends, when the keys and the strings of the map
are well-formed UTF-8 and its values are the Go values of JSON data. -/
theorem Decode_Marshal (m : GoMap) (hm : json.NormalMap m) (data : Bytes)
    (h : json.Marshal m = .ok data) : json.Decode (data ++ [10]) = .ok m := by
  unfold json.Marshal at h
  split at h
  · rename_i hser
    simp only [Except.ok.injEq] at h
    have hN : json.Normal (.object (json.members m)) := by
      simp only [json.Normal]
      exact ⟨NormalMembers_members m hm, by rw [members_keys]; exact sortedKeys_strict m⟩
    have hb : data ++ [10] = json.utf8Encode (json.textValue (.object (json.members m))
        ++ [Char.ofNat 10]) := by
      rw [utf8Encode_append, ← h]
      simp [json.utf8Encode, utf8Char_newline]
    have hdec : json.utf8Decode (data ++ [10]).length (data ++ [10]) =
        json.textValue (.object (json.members m)) ++ [Char.ofNat 10] := by
      rw [hb]
      exact utf8Decode_encode _ _ (utf8Encode_length _)
    have hparse := parseValue_object_top (json.members m) hN hser
      ((json.textValue (.object (json.members m)) ++ [Char.ofNat 10]).length + 1)
      [Char.ofNat 10] (by simp only [List.length_append]; omega)
    obtain ⟨c, cs, hc, hc1, _, _⟩ := textValue_head _ hN (by simpa [json.serializable] using hser)
    unfold json.Decode
    simp only [hdec]
    rw [hparse]
    rw [hc, List.cons_append, skipWS_of_not_ws c _ (isWS_false_of c hc1)]
    simp only [toMap_members]
  · simp at h

theorem mem_putMember (k : Bytes) (v : Value) (acc : List (Bytes × Value))
    (y : Bytes × Value) (h : y ∈ json.putMember k v acc) : y = (k, v) ∨ y ∈ acc := by
  induction acc with
  | nil => simp [json.putMember] at h; exact Or.inl h
  | cons x xs ih =>
    unfold json.putMember at h
    split at h
    · rcases List.mem_cons.mp h with h | h
      · exact Or.inl h
      · exact Or.inr (List.mem_cons_of_mem _ h)
    · split at h
      · rcases List.mem_cons.mp h with h | h
        · exact Or.inl h
        · exact Or.inr h
      · rcases List.mem_cons.mp h with h | h
        · exact Or.inr (h ▸ List.mem_cons_self _ _)
        · rcases ih h with h | h
          · exact Or.inl h
          · exact Or.inr (List.mem_cons_of_mem _ h)

theorem putMember_sorted (k : Bytes) (v : Value) (acc : List (Bytes × Value))
    (hs : (acc.map Prod.fst).Pairwise json.keyLT) :
    ((json.putMember k v acc).map Prod.fst).Pairwise json.keyLT := by
  induction acc with
  | nil => simp [json.putMember]
  | cons x xs ih =>
    simp only [List.map_cons, List.pairwise_cons] at hs
    unfold json.putMember
    split
    · rename_i hk
      simp only [List.map_cons, List.pairwise_cons]
      exact ⟨fun y hy => hk ▸ hs.1 y hy, hs.2⟩
    · rename_i hk
      split
      · rename_i hle
        have hlt : json.keyLT k x.1 := ⟨hle, hk⟩
        simp only [List.map_cons, List.pairwise_cons, List.mem_cons]
        refine ⟨?_, hs.1, hs.2⟩
        intro y hy
        rcases hy with hy | hy
        · subst hy; exact hlt
        · exact keyLT_trans hlt (hs.1 y hy)
      · rename_i hle
        have hlt : json.keyLT x.1 k := by
          refine ⟨?_, fun e => hk e.symm⟩
          rcases total_of json.keyLE x.1 k with h | h
          · exact h
          · exact absurd h hle
        simp only [List.map_cons, List.pairwise_cons]
        refine ⟨?_, ih hs.2⟩
        intro y hy
        obtain ⟨z, hz, rfl⟩ := List.mem_map.mp hy
        rcases mem_putMember k v xs z hz with h | h
        · subst h; exact hlt
        · exact hs.1 z.1 (List.mem_map_of_mem Prod.fst h)

theorem foldl_putMember_normal (kvs : List (Bytes × Value)) :
    ∀ acc : List (Bytes × Value), (acc.map Prod.fst).Pairwise json.keyLT →
      (∀ y ∈ acc, json.validUTF8 y.1 = true ∧ json.Normal y.2) →
      (∀ y ∈ kvs, json.validUTF8 y.1 = true ∧ json.Normal y.2) →
      ((kvs.foldl (fun acc kv => json.putMember kv.1 kv.2 acc) acc).map Prod.fst).Pairwise
          json.keyLT ∧
        ∀ y ∈ kvs.foldl (fun acc kv => json.putMember kv.1 kv.2 acc) acc,
          json.validUTF8 y.1 = true ∧ json.Normal y.2 := by
  induction kvs with
  | nil => intro acc h1 h2 _; exact ⟨h1, h2⟩
  | cons kv kvs ih =>
    intro acc h1 h2 h3
    simp only [List.foldl_cons]
    apply ih
    · exact putMember_sorted kv.1 kv.2 acc h1
    · intro y hy
      rcases mem_putMember kv.1 kv.2 acc y hy with h | h
      · subst h; exact h3 kv (List.mem_cons_self _ _)
      · exact h2 y h
    · intro y hy
      exact h3 y (List.mem_cons_of_mem _ hy)

theorem Normal_object_putMembers (kvs : List (Bytes × Value))
    (h : json.NormalMembers kvs) : json.Normal (.object (json.putMembers kvs)) := by
  have := foldl_putMember_normal kvs [] (by simp) (by simp) ((NormalMembers_iff kvs).mp h)
  simp only [json.Normal, NormalMembers_iff]
  exact ⟨this.2, this.1⟩

theorem parse_normal : ∀ fuel : Nat,
    (∀ cs v r, json.parseValue fuel cs = some (v, r) → json.Normal v) ∧
    (∀ cs vs r, json.parseElems fuel cs = some (vs, r) → json.NormalElems vs) ∧
    (∀ cs kvs r, json.parseMembers fuel cs = some (kvs, r) → json.NormalMembers kvs) := by
  intro fuel
  induction fuel with
  | zero =>
    refine ⟨?_, ?_, ?_⟩ <;> intro cs v r h
    · simp [json.parseValue] at h
    · simp [json.parseElems] at h
    · simp [json.parseMembers] at h
  | succ f ih =>
    obtain ⟨ihV, ihE, ihM⟩ := ih
    refine ⟨?_, ?_, ?_⟩
    · intro cs v r h
      unfold json.parseValue at h
      split at h
      · simp at h
      · split at h
        · split at h
          · simp at h
          · split at h
            · simp only [Option.some.injEq, Prod.mk.injEq] at h
              rw [← h.1]
              simp [json.Normal, json.NormalMembers]
            · split at h
              · rename_i kvs r' hp
                simp only [Option.some.injEq, Prod.mk.injEq] at h
                rw [← h.1]
                exact Normal_object_putMembers kvs (ihM _ _ _ hp)
              · simp at h
        · split at h
          · split at h
            · simp at h
            · split at h
              · simp only [Option.some.injEq, Prod.mk.injEq] at h
                rw [← h.1]
                simp [json.Normal, json.NormalElems]
              · split at h
                · rename_i vs r' hp
                  simp only [Option.some.injEq, Prod.mk.injEq] at h
                  rw [← h.1]
                  simp only [json.Normal]
                  exact ihE _ _ _ hp
                · simp at h
          · split at h
            · split at h
              · simp only [Option.some.injEq, Prod.mk.injEq] at h
                rw [← h.1]
                simp [json.Normal, validUTF8_encode]
              · simp at h
            · split at h
              · simp only [Option.map_eq_some'] at h
                obtain ⟨_, _, h⟩ := h
                simp only [Prod.mk.injEq] at h
                rw [← h.1]
                simp [json.Normal]
              · split at h
                · simp only [Option.map_eq_some'] at h
                  obtain ⟨_, _, h⟩ := h
                  simp only [Prod.mk.injEq] at h
                  rw [← h.1]
                  simp [json.Normal]
                · split at h
                  · simp only [Option.map_eq_some'] at h
                    obtain ⟨_, _, h⟩ := h
                    simp only [Prod.mk.injEq] at h
                    rw [← h.1]
                    simp [json.Normal]
                  · simp only [Option.map_eq_some'] at h
                    obtain ⟨_, _, h⟩ := h
                    simp only [Prod.mk.injEq] at h
                    rw [← h.1]
                    simp [json.Normal]
    · intro cs vs r h
      unfold json.parseElems at h
      split at h
      · simp at h
      · rename_i v r0 hv
        have hnv := ihV _ _ _ hv
        split at h
        · simp at h
        · split at h
          · split at h
            · rename_i vs' r2 hp
              simp only [Option.some.injEq, Prod.mk.injEq] at h
              rw [← h.1]
              exact ⟨hnv, ihE _ _ _ hp⟩
            · simp at h
          · split at h
            · simp only [Option.some.injEq, Prod.mk.injEq] at h
              rw [← h.1]
              exact ⟨hnv, trivial⟩
            · simp at h
    · intro cs kvs r h
      unfold json.parseMembers at h
      split at h
      · simp at h
      · split at h
        · split at h
          · simp at h
          · split at h
            · simp at h
            · split at h
              · split at h
                · simp at h
                · rename_i v r3 hv
                  have hnv := ihV _ _ _ hv
                  split at h
                  · simp at h
                  · split at h
                    · split at h
                      · rename_i kvs' r5 hp
                        simp only [Option.some.injEq, Prod.mk.injEq] at h
                        rw [← h.1]
                        exact ⟨⟨validUTF8_encode _, hnv⟩, ihM _ _ _ hp⟩
                      · simp at h
                    · split at h
                      · simp only [Option.some.injEq, Prod.mk.injEq] at h
                        rw [← h.1]
                        exact ⟨⟨validUTF8_encode _, hnv⟩, trivial⟩
                      · simp at h
              · simp at h
        · simp at h

theorem NormalMap_toMap (kvs : List (Bytes × Value)) (h : json.NormalMembers kvs) :
    json.NormalMap (json.toMap kvs) := by
  intro k v hv
  rcases lookup_foldl_insert_some kvs k v ∅ hv with hkv | h'
  · exact (NormalMembers_iff kvs).mp h (k, v) hkv
  · simp at h'

theorem NormalMap_empty : json.NormalMap ∅ := by
  intro k v h
  simp at h

theorem NormalMap_insert (m : GoMap) (k : Bytes) (v : Value) (hm : json.NormalMap m)
    (hk : json.validUTF8 k = true) (hv : json.Normal v) : json.NormalMap (m.insert k v) := by
  intro k' v' h
  by_cases hkk : k' = k
  · subst hkk
    rw [Finmap.lookup_insert] at h
    exact Option.some.inj h ▸ ⟨hk, hv⟩
  · rw [Finmap.lookup_insert_of_ne _ hkk] at h
    exact hm k' v' h

/-- What `Decode` returns is made of normal values under keys that are
well-formed UTF-8. -/
theorem NormalMap_Decode (b : Bytes) (O : GoMap) (h : json.Decode b = .ok O) :
    json.NormalMap O := by
  unfold json.Decode at h
  simp only at h
  split at h
  · simp at h
  · split at h
    · simp at h
    · rename_i kvs r hp
      simp only [Except.ok.injEq] at h
      rw [← h]
      have hn := (parse_normal _).1 _ _ _ hp
      simp only [json.Normal] at hn
      exact NormalMap_toMap kvs hn.1
    · simp only [Except.ok.injEq] at h
      rw [← h]
      exact NormalMap_empty
    · split at h
      · simp only [Except.ok.injEq] at h
        rw [← h]
        exact NormalMap_empty
      · simp at h
    · simp at h

theorem store_then_Init (J : JSON) (env : Env) (d : TData) (fs fs1 : FS)
    (h : store J env d fs = (none, fs1))
    (hjson : ∀ data, J.Marshal d.items = .ok data → J.Decode (data ++ [10]) = .ok d.items) :
    (Init J fs1 d.filepath).1 = .ok d := by
  obtain ⟨data, hdata, hfile, _⟩ := store_ok_file J env d fs fs1 h
  rw [Init_of_file J fs1 d.filepath _ hfile, hjson data hdata]
  simp only [cmap_MSet_New]

theorem Init_NormalMap (fs : FS) (p : String) (d : TData)
    (h : (Init goJSON fs p).1 = .ok d) : json.NormalMap d.items := by
  unfold Init at h
  simp only at h
  split at h
  · simp only [Except.ok.injEq] at h
    rw [← h]
    exact NormalMap_empty
  · split at h
    · simp at h
    · split at h
      · simp at h
      · split at h
        · simp at h
        · rename_i readData hd
          simp only [Except.ok.injEq] at h
          rw [← h]
          simp only [cmap_MSet_New]
          unfold decodeFile at hd
          split at hd
          · simp at hd
          · split at hd
            · exact NormalMap_Decode _ _ hd
            · simp at hd

/-! ## The codec on examples -/

set_option exponentiation.threshold 2000 in
set_option maxRecDepth 100000 in
/-- The numbers that literals write: a fraction, an exponent, an integer above
`2 ^ 53` (which is rounded), the negative zero, the least subnormal number
and the largest `float64`; a literal beyond the largest `float64` is out of
range, and one below the least subnormal number is a zero. -/
theorem ParseFloat_examples :
    strconv.ParseFloat "1".toList = some ⟨false, 2 ^ 52, -52⟩ ∧
    strconv.ParseFloat "1.5".toList = some ⟨false, 3 * 2 ^ 51, -52⟩ ∧
    strconv.ParseFloat "25e-1".toList = some ⟨false, 5 * 2 ^ 50, -51⟩ ∧
    strconv.ParseFloat "9007199254740993".toList = some ⟨false, 2 ^ 52, 1⟩ ∧
    strconv.ParseFloat "-0".toList = some ⟨true, 0, -1074⟩ ∧
    strconv.ParseFloat "5e-324".toList = some ⟨false, 1, -1074⟩ ∧
    strconv.ParseFloat "1.7976931348623157e308".toList = some ⟨false, 2 ^ 53 - 1, 971⟩ ∧
    strconv.ParseFloat "1e-6".toList = some json.tiny ∧
    strconv.ParseFloat "1e21".toList = some json.huge ∧
    strconv.ParseFloat "1e400".toList = none ∧
    strconv.ParseFloat ('1' :: List.replicate 400 '0') = none ∧
    strconv.ParseFloat "1e-400".toList = some ⟨false, 0, -1074⟩ ∧
    strconv.ParseFloat "01".toList = none ∧
    strconv.ParseFloat "1.".toList = none ∧
    strconv.ParseFloat ".5".toList = none ∧
    strconv.ParseFloat "+1".toList = none :=
  ⟨rfl, rfl, rfl, rfl, rfl, rfl, rfl, rfl, rfl, rfl, rfl, rfl, rfl, rfl, rfl, rfl⟩

set_option maxRecDepth 100000 in
/-- The texts of numbers: the shortest digits, without an exponent from
`1e-6` up to `1e21`, and with the exponent of `encoding/json` outside. -/
theorem floatText_examples :
    json.floatText ⟨false, 2 ^ 52, -52⟩ = some "1".toList ∧
    json.floatText ⟨false, 3 * 2 ^ 51, -52⟩ = some "1.5".toList ∧
    json.floatText ⟨false, 7205759403792794, -56⟩ = some "0.1".toList ∧
    json.floatText ⟨false, 2 ^ 52, 1⟩ = some "9007199254740992".toList ∧
    json.floatText ⟨true, 0, -1074⟩ = some "-0".toList ∧
    json.floatText ⟨false, 0, -1074⟩ = some "0".toList ∧
    json.floatText json.tiny = some "0.000001".toList ∧
    json.floatText ⟨false, 7555786372591432, -76⟩ = some "1e-7".toList ∧
    json.floatText ⟨false, 7629394531249999, 17⟩ = some "999999999999999900000".toList ∧
    json.floatText json.huge = some "1e+21".toList ∧
    json.floatText ⟨true, 6250000000000000, -39⟩ = some "-11368.683772161603".toList :=
  ⟨rfl, rfl, rfl, rfl, rfl, rfl, rfl, rfl, rfl, rfl, rfl⟩

/-- The texts of strings: the escapes of `json.Marshal`, and U+FFFD for a byte
that is not part of well-formed UTF-8. -/
theorem encodeString_examples :
    json.encodeString (str "a\"b\\c") = "\"a\\\"b\\\\c\"".toList ∧
    json.encodeString [8, 12, 10, 13, 9, 1] = "\"\\b\\f\\n\\r\\t\\u0001\"".toList ∧
    json.encodeString (str "<&>") = "\"\\u003c\\u0026\\u003e\"".toList ∧
    json.encodeString badString = "\"a\\ufffdb\"".toList ∧
    json.encodeString replacedString = [Char.ofNat 34, Char.ofNat 97, Char.ofNat 65533,
      Char.ofNat 98, Char.ofNat 34] ∧
    json.validUTF8 badString = false ∧ json.validUTF8 replacedString = true :=
  ⟨rfl, rfl, rfl, rfl, rfl, rfl, rfl⟩

/-- The decoder on snapshots: numbers are `float64`, a later member replaces
an earlier one of the same key, what follows the object is not read, `null`
leaves the map empty, and a number out of range, a value that is not an
object and an empty file are errors. -/
theorem Decode_examples :
    json.Decode (json.bytesOf " \x7b \"a\" : 1.5 , \"b\" : [true, null, \"x\"] \x7d ") =
      .ok (Finmap.insert (str "b") (.array [.bool true, .null, .string (str "x")])
        (Finmap.insert (str "a") (.number ⟨false, 3 * 2 ^ 51, -52⟩) ∅)) ∧
    json.Decode (json.bytesOf "\x7b\"a\":1,\"a\":2\x7d") =
      .ok (Finmap.insert (str "a") (.number ⟨false, 2 ^ 52, -51⟩) ∅) ∧
    json.Decode (json.bytesOf "\x7b\x7d trailing") = .ok ∅ ∧
    json.Decode (json.bytesOf "null\n") = .ok ∅ ∧
    json.Decode (json.bytesOf "\x7b\"a\":1e400\x7d") =
      .error (.jsonError "invalid character in JSON text") ∧
    json.Decode (json.bytesOf "[1]") =
      .error (.jsonError "json: cannot unmarshal into Go value of type map[string]interface {}") ∧
    json.Decode [] = .error (.jsonError "EOF") :=
  ⟨rfl, rfl, rfl, rfl, rfl, rfl, rfl⟩

set_option maxRecDepth 100000 in
/-- The snapshot of a store that holds numbers, and the store that `Init`
reads back from it. -/
theorem store_numbers_example :
    ∃ fs1, store goJSON noFaults numStore emptyFS = (none, fs1) ∧
      fs1 "./db.json" =
        .file (json.bytesOf "\x7b\"a\":1.5,\"b\":[1e+21,-0,0.1]\x7d" ++ [10]) ∧
      (Init goJSON fs1 "./db.json").1 = .ok numStore :=
  ⟨_, rfl, rfl, rfl⟩

/-! ## The claims -/

/-- C1, as amended. Round trip. For every path `p` and every key `k` and
string `v` that are well-formed UTF-8: after `Init p`, `Set k v` and a `store`
that returns no error, a fresh `Init p` on the file system that `store` left
returns no error and a store in which `Get k` is `(v, true)`; the reloaded
store is the store that was flushed, with exactly its items, and its
`MarshalJSON` output is the same. More generally, whenever `store` returns no
error for a store whose keys and strings are well-formed UTF-8 and whose
values are the Go values that the decoder returns, a fresh `Init` on its path
returns that store. -/
theorem C1_round_trip (env : Env) (fs fs1 : FS) (p : String) (k v : Bytes) (d0 : TData)
    (hk : json.validUTF8 k = true) (hv : json.validUTF8 v = true)
    (hinit : (Init goJSON fs p).1 = .ok d0)
    (hflush : store goJSON env (d0.Set k (.string v)) (Init goJSON fs p).2 = (none, fs1)) :
    (∃ d2, (Init goJSON fs1 p).1 = .ok d2 ∧ d2.Get k = (.string v, true) ∧
      d2 = d0.Set k (.string v) ∧
      d2.MarshalJSON goJSON = (d0.Set k (.string v)).MarshalJSON goJSON) ∧
    (∀ (d : TData) (fsa fsb : FS), json.NormalMap d.items →
      store goJSON env d fsa = (none, fsb) →
      ∃ d3, (Init goJSON fsb d.filepath).1 = .ok d3 ∧ d3 = d ∧
        (∀ key, d3.Get key = d.Get key) ∧ d3.MarshalJSON goJSON = d.MarshalJSON goJSON) := by
  have hp : (d0.Set k (.string v)).filepath = p := Init_filepath goJSON fs p d0 hinit
  have hn : json.NormalMap (d0.Set k (.string v)).items :=
    NormalMap_insert _ k _ (Init_NormalMap fs p d0 hinit) hk (by simpa [json.Normal] using hv)
  have hi := store_then_Init goJSON env (d0.Set k (.string v)) _ fs1 hflush
    (fun data hd => Decode_Marshal _ hn data hd)
  rw [hp] at hi
  refine ⟨⟨d0.Set k (.string v), hi, ?_, rfl, rfl⟩, ?_⟩
  · simp [TData.Get, TData.Set, cmap_Get_Set_self]
  · intro d fsa fsb hd hs
    exact ⟨d, store_then_Init goJSON env d fsa fsb hs
      (fun data hm => Decode_Marshal _ hd data hm), rfl, fun _ => rfl, rfl⟩

/-- C1 as stated fails. The value `"a\xffb"` is set under the key `k` in the
store of a path without a file, and `store` returns no error: the snapshot
holds the escape of U+FFFD in place of the byte `0xff`, and in the store that
a fresh `Init` returns `Get k` is the string `a`, U+FFFD, `b`, which is not
the value that was set. -/
theorem C1_invalid_string_not_read_back :
    json.validUTF8 badString = false ∧
    (Init goJSON emptyFS "./db.json").1 = .ok ⟨"./db.json", cmap.New⟩ ∧
    ∃ fs1, store goJSON noFaults ((TData.mk "./db.json" cmap.New).Set (str "k")
        (.string badString)) (Init goJSON emptyFS "./db.json").2 = (none, fs1) ∧
      fs1 "./db.json" = .file (json.bytesOf "\x7b\"k\":\"a\\ufffdb\"\x7d" ++ [10]) ∧
      ∃ d2, (Init goJSON fs1 "./db.json").1 = .ok d2 ∧
        d2.Get (str "k") = (.string replacedString, true) ∧
        d2.Get (str "k") ≠ (.string badString, true) := by
  refine ⟨rfl, rfl, _, rfl, rfl, _, rfl, rfl, ?_⟩
  intro h
  have h1 : (Value.string replacedString, true) = (Value.string badString, true) :=
    Eq.trans (by rfl) h
  have h2 : replacedString = badString := by
    injection h1 with h3 _
    injection h3
  exact absurd h2 (by decide)

/-- The round trip of the key `k` and the value `v` at a path without a file. -/
theorem C1_round_trip_witness :
    json.validUTF8 (str "k") = true ∧ json.validUTF8 (str "v") = true ∧
    (Init goJSON emptyFS "./db.json").1 = .ok ⟨"./db.json", cmap.New⟩ ∧
    (∃ fs1, store goJSON noFaults ((TData.mk "./db.json" cmap.New).Set (str "k")
        (.string (str "v"))) (Init goJSON emptyFS "./db.json").2 = (none, fs1) ∧
      ∃ d2, (Init goJSON fs1 "./db.json").1 = .ok d2 ∧
        d2.Get (str "k") = (.string (str "v"), true) ∧
        d2 = (TData.mk "./db.json" cmap.New).Set (str "k") (.string (str "v")) ∧
        d2.MarshalJSON goJSON =
          ((TData.mk "./db.json" cmap.New).Set (str "k") (.string (str "v"))).MarshalJSON
            goJSON) :=
  ⟨rfl, rfl, rfl, _, rfl, (C1_round_trip noFaults emptyFS _ "./db.json" (str "k") (str "v")
    ⟨"./db.json", cmap.New⟩ rfl rfl rfl rfl).1⟩

/-- C2, as amended. Whenever `store` returns no error, the values of the
store were all serializable and the file at the path of the store holds
exactly the output of `MarshalJSON` for the items of the store followed by
one newline (byte 10); the lock marker is gone and no other path has changed.
Decoding the file yields exactly the items of the store when its keys and
strings are well-formed UTF-8 and its values are the Go values that the
decoder returns. -/
theorem C2_flush_writes_snapshot (env : Env) (d : TData) (fs fs1 : FS)
    (h : store goJSON env d fs = (none, fs1)) :
    ∃ data, d.MarshalJSON goJSON = .ok data ∧
      json.serializableMembers (json.members d.items) = true ∧
      fs1 d.filepath = .file (data ++ [10]) ∧
      fs1 (d.filepath ++ ".lock") = .absent ∧
      (∀ q, q ≠ d.filepath → q ≠ d.filepath ++ ".lock" → fs1 q = fs q) ∧
      (json.NormalMap d.items →
        decodeFile goJSON fs1 (os.Open fs1 d.filepath).1 = .ok d.items) := by
  obtain ⟨data, hdata, hp, hl, hq⟩ := store_ok_file goJSON env d fs fs1 h
  refine ⟨data, hdata, ?_, hp, hl, hq, ?_⟩
  · have hm : json.Marshal d.items = .ok data := hdata
    unfold json.Marshal at hm
    split at hm
    · assumption
    · simp at hm
  · intro hn
    have hdec : decodeFile goJSON fs1 (os.Open fs1 d.filepath).1 =
        goJSON.Decode (data ++ [10]) := by
      simp [os.Open, decodeFile, hp]
    rw [hdec]
    exact Decode_Marshal d.items hn data hdata

/-- C2 as stated fails. The values of two stores are serializable and `store`
returns no error. The store that holds the string `"a\xffb"` leaves a file
with the escape of U+FFFD, which decodes to the string `a`, U+FFFD, `b`; the
store that holds the Go integer `2 ^ 53 + 1` leaves a file with the digits of
that integer, which decodes to the `float64` `2 ^ 53`. In both cases the value
decoded from the file is not the value of the store. -/
theorem C2_decoding_differs_from_store :
    (json.serializableMembers (json.members badStore.items) = true ∧
      ∃ fs1, store goJSON noFaults badStore emptyFS = (none, fs1) ∧
        fs1 "./db.json" = .file (json.bytesOf "\x7b\"k\":\"a\\ufffdb\"\x7d" ++ [10]) ∧
        decodeFile goJSON fs1 (os.Open fs1 "./db.json").1 =
          .ok (Finmap.insert (str "k") (.string replacedString) ∅) ∧
        decodeFile goJSON fs1 (os.Open fs1 "./db.json").1 ≠ .ok badStore.items) ∧
    (json.serializableMembers (json.members bigIntStore.items) = true ∧
      ∃ fs1, store goJSON noFaults bigIntStore emptyFS = (none, fs1) ∧
        fs1 "./db.json" = .file (json.bytesOf "\x7b\"a\":9007199254740993\x7d" ++ [10]) ∧
        decodeFile goJSON fs1 (os.Open fs1 "./db.json").1 =
          .ok (Finmap.insert (str "a") (.number ⟨false, 2 ^ 52, 1⟩) ∅) ∧
        decodeFile goJSON fs1 (os.Open fs1 "./db.json").1 ≠ .ok bigIntStore.items) := by
  refine ⟨⟨rfl, _, rfl, rfl, rfl, ?_⟩, ⟨rfl, _, rfl, rfl, rfl, ?_⟩⟩
  · intro h
    have h1 : (Except.ok (Finmap.insert (str "k") (Value.string replacedString) ∅) :
        Except GoError GoMap) = .ok badStore.items := Eq.trans (by rfl) h
    have h2 := congrArg (fun m : GoMap => m.lookup (str "k")) (Except.ok.inj h1)
    have h3 : some (Value.string replacedString) = some (Value.string badString) :=
      Eq.trans (by rfl) (h2.trans (by rfl))
    have h4 : replacedString = badString := by
      injection h3 with h5
      injection h5
    exact absurd h4 (by decide)
  · intro h
    have h1 : (Except.ok (Finmap.insert (str "a") (Value.number ⟨false, 2 ^ 52, 1⟩) ∅) :
        Except GoError GoMap) = .ok bigIntStore.items := Eq.trans (by rfl) h
    have h2 := congrArg (fun m : GoMap => m.lookup (str "a")) (Except.ok.inj h1)
    have h3 : some (Value.number ⟨false, 2 ^ 52, 1⟩) = some (Value.int 9007199254740993) :=
      Eq.trans (by rfl) (h2.trans (by rfl))
    injection h3 with h5
    cases h5

/-- The store of `TestDataSync`: the keys 1 and 2 on a file system without
files. -/
theorem C2_flush_writes_snapshot_witness :
    ∃ fs1, store goJSON noFaults
        (((TData.mk "./testdataSync.json" cmap.New).Set (str "1") (.string (str "Test1"))).Set
          (str "2") (.string (str "Test2"))) emptyFS = (none, fs1) ∧
      fs1 "./testdataSync.json" =
        .file (json.bytesOf "\x7b\"1\":\"Test1\",\"2\":\"Test2\"\x7d" ++ [10]) ∧
      fs1 "./testdataSync.json.lock" = .absent ∧
      decodeFile goJSON fs1 (os.Open fs1 "./testdataSync.json").1 =
        .ok (((TData.mk "./testdataSync.json" cmap.New).Set (str "1")
          (.string (str "Test1"))).Set (str "2") (.string (str "Test2"))).items := by
  refine ⟨_, rfl, ?_⟩
  obtain ⟨data, h1, _, h2, h3, _, h5⟩ := C2_flush_writes_snapshot noFaults
    (((TData.mk "./testdataSync.json" cmap.New).Set (str "1") (.string (str "Test1"))).Set
      (str "2") (.string (str "Test2"))) emptyFS _ rfl
  have hd : data = json.bytesOf "\x7b\"1\":\"Test1\",\"2\":\"Test2\"\x7d" := by
    have : (Except.ok data : Except GoError Bytes) =
        .ok (json.bytesOf "\x7b\"1\":\"Test1\",\"2\":\"Test2\"\x7d") := h1.symm.trans (by rfl)
    exact Except.ok.inj this
  subst hd
  refine ⟨h2, h3, h5 ?_⟩
  exact NormalMap_insert _ _ _ (NormalMap_insert _ _ _ NormalMap_empty rfl rfl) rfl rfl

/-- C3. For every path at which a file exists whose contents decode as the
JSON object `O`, `Init` returns no error and a store bound to that path in
which `Get k` is `(O[k], true)` for every key `k` of `O` and reports
not-found for every key that is not in `O`. -/
theorem C3_Init_reads_snapshot (J : JSON) (fs : FS) (p : String) (c : Bytes) (O : GoMap)
    (hfile : fs p = .file c) (hdec : J.Decode c = .ok O) :
    ∃ d, (Init J fs p).1 = .ok d ∧ d.filepath = p ∧
      (∀ k v, O.lookup k = some v → d.Get k = (v, true)) ∧
      (∀ k, O.lookup k = none → d.Get k = (.null, false)) := by
  refine ⟨⟨p, O⟩, ?_, rfl, ?_, ?_⟩
  · rw [Init_of_file J fs p c hfile, hdec]
    simp [cmap_MSet_New]
  · intro k v hk
    exact cmap_Get_of_lookup_some hk
  · intro k hk
    exact cmap_Get_of_lookup_none hk

/-- The snapshot of the example of C3. -/
theorem C3_Init_reads_snapshot_witness :
    oneFile "snapshot.json" (json.bytesOf "\x7b\"a\":1,\"b\":2\x7d") "snapshot.json" =
        .file (json.bytesOf "\x7b\"a\":1,\"b\":2\x7d") ∧
    goJSON.Decode (json.bytesOf "\x7b\"a\":1,\"b\":2\x7d") =
        .ok (Finmap.insert (str "b") (.number ⟨false, 2 ^ 52, -51⟩)
          (Finmap.insert (str "a") (.number ⟨false, 2 ^ 52, -52⟩) ∅)) ∧
    ∃ d, (Init goJSON (oneFile "snapshot.json" (json.bytesOf "\x7b\"a\":1,\"b\":2\x7d"))
        "snapshot.json").1 = .ok d ∧
      d.Get (str "a") = (.number ⟨false, 2 ^ 52, -52⟩, true) ∧
      d.Get (str "b") = (.number ⟨false, 2 ^ 52, -51⟩, true) ∧
      d.Get (str "c") = (.null, false) := by
  have hdec : goJSON.Decode (json.bytesOf "\x7b\"a\":1,\"b\":2\x7d") =
      .ok (Finmap.insert (str "b") (.number ⟨false, 2 ^ 52, -51⟩)
        (Finmap.insert (str "a") (.number ⟨false, 2 ^ 52, -52⟩) ∅)) := by rfl
  refine ⟨rfl, hdec, ?_⟩
  obtain ⟨d, h1, _, h3, h4⟩ := C3_Init_reads_snapshot goJSON
    (oneFile "snapshot.json" (json.bytesOf "\x7b\"a\":1,\"b\":2\x7d")) "snapshot.json"
    (json.bytesOf "\x7b\"a\":1,\"b\":2\x7d")
    (Finmap.insert (str "b") (.number ⟨false, 2 ^ 52, -51⟩)
      (Finmap.insert (str "a") (.number ⟨false, 2 ^ 52, -52⟩) ∅)) rfl hdec
  exact ⟨d, h1, h3 (str "a") _ rfl, h3 (str "b") _ rfl, h4 (str "c") rfl⟩

/-- C4, as amended. For every path that `os.Stat` reports as not existing
(nothing is at the path, or a directory of the path is missing), `Init`
returns no error and an empty store bound to that path: `Get` reports
not-found on every key, and `Init` leaves the file system as it was, so it
does not create the file. -/
theorem C4_Init_without_file (J : JSON) (fs : FS) (p : String)
    (h : os.IsNotExist (os.Stat fs p) = true) :
    (fs p = .absent ∨ fs p = .denied .ENOENT) ∧
    (Init J fs p).1 = .ok ⟨p, cmap.New⟩ ∧
      (∀ k, (TData.mk p cmap.New).Get k = (.null, false)) ∧
      (Init J fs p).2 = fs ∧ (Init J fs p).2 p = fs p := by
  have hs := (IsNotExist_Stat fs p).mp h
  have hi : Init J fs p = (.ok ⟨p, cmap.New⟩, fs) := by
    rcases hs with h | h
    · exact Init_of_absent J fs p h
    · exact Init_of_denied_ENOENT J fs p h
  refine ⟨hs, by rw [hi], ?_, by rw [hi], by rw [hi]⟩
  intro k
  simp [TData.Get, cmap.Get, cmap.New]

/-- C4 as stated fails. In a file system where `./afile` is a regular file,
no file exists at the path `./afile/db.json`, and `Init` on that path returns
the error of `os.Stat` (`ENOTDIR`), which is not a not-exist error, and no
store. -/
theorem C4_Init_fails_without_file :
    (∀ c, notDirFS "./afile/db.json" ≠ .file c) ∧
    os.Stat notDirFS "./afile/db.json" = some (.pathError "stat" "./afile/db.json" .ENOTDIR) ∧
    os.IsNotExist (os.Stat notDirFS "./afile/db.json") = false ∧
    (Init goJSON notDirFS "./afile/db.json").1 =
      .error (.pathError "stat" "./afile/db.json" .ENOTDIR) ∧
    (GoError.pathError "stat" "./afile/db.json" .ENOTDIR).Error =
      "stat ./afile/db.json: not a directory" := by
  refine ⟨?_, rfl, rfl, rfl, rfl⟩
  intro c h
  have h0 : Node.denied .ENOTDIR = Node.file c := h
  cases h0

/-- The path of the example of the specification, on a file system without
files. -/
theorem C4_Init_without_file_witness :
    os.IsNotExist (os.Stat emptyFS "/path/to/nonexistent.json") = true ∧
    ((emptyFS "/path/to/nonexistent.json" = .absent ∨
        emptyFS "/path/to/nonexistent.json" = .denied .ENOENT) ∧
      (Init goJSON emptyFS "/path/to/nonexistent.json").1 =
        .ok ⟨"/path/to/nonexistent.json", cmap.New⟩ ∧
      (∀ k, (TData.mk "/path/to/nonexistent.json" cmap.New).Get k = (.null, false)) ∧
      (Init goJSON emptyFS "/path/to/nonexistent.json").2 = emptyFS ∧
      (Init goJSON emptyFS "/path/to/nonexistent.json").2 "/path/to/nonexistent.json" =
        emptyFS "/path/to/nonexistent.json") :=
  ⟨rfl, C4_Init_without_file goJSON emptyFS "/path/to/nonexistent.json" rfl⟩

/-- C5. `SetIfAbsent k v` on a store without the key `k` returns true, and
then `Get k` is `(v, true)` and every other key is as before; on a store that
has the key `k` it returns false and leaves the store as it was. And for any
pairwise distinct keys, in particular the 50 keys of the test, the calls of
`SetIfAbsent` on the empty store one after the other all return true, and
afterwards each key holds the value it was given. -/
theorem C5_SetIfAbsent (d : TData) (k : Bytes) (v : Value) :
    ((d.Get k).2 = false →
      (d.SetIfAbsent k v).2 = true ∧ (d.SetIfAbsent k v).1.Get k = (v, true) ∧
        ∀ k', k' ≠ k → (d.SetIfAbsent k v).1.Get k' = d.Get k') ∧
    ((d.Get k).2 = true → (d.SetIfAbsent k v).2 = false ∧ (d.SetIfAbsent k v).1 = d) ∧
    (∀ kvs : List (Bytes × Value), (kvs.map Prod.fst).Nodup →
      (setAllIfAbsent ⟨d.filepath, cmap.New⟩ kvs).2 = kvs.map (fun _ => true) ∧
      ∀ kv ∈ kvs, (setAllIfAbsent ⟨d.filepath, cmap.New⟩ kvs).1.Get kv.1 = (kv.2, true)) := by
  refine ⟨?_, ?_, ?_⟩
  · intro h
    have hl : d.items.lookup k = none := by
      cases hk : d.items.lookup k with
      | none => rfl
      | some w => simp [TData.Get, cmap.Get, hk] at h
    refine ⟨?_, ?_, ?_⟩
    · simp [TData.SetIfAbsent, cmap.SetIfAbsent, hl]
    · simp [TData.SetIfAbsent, cmap.SetIfAbsent, hl, TData.Get, cmap.Get]
    · intro k' hne
      simp [TData.SetIfAbsent, cmap.SetIfAbsent, hl, TData.Get, cmap.Get,
        Finmap.lookup_insert_of_ne _ hne]
  · intro h
    cases hk : d.items.lookup k with
    | none => simp [TData.Get, cmap.Get, hk] at h
    | some w => simp [TData.SetIfAbsent, cmap.SetIfAbsent, hk]
  · intro kvs hnd
    have := setAllIfAbsent_spec kvs ⟨d.filepath, cmap.New⟩ hnd
      (fun kv _ => by simp [cmap.New])
    exact ⟨this.1, this.2.1⟩

/-- The 50 calls of `TestDoInit`, and a call on a key that is present. -/
theorem C5_SetIfAbsent_witness :
    (testPairs.map Prod.fst).Nodup ∧ testPairs.length = 50 ∧
    (setAllIfAbsent ⟨"./TestDoInitData.json", cmap.New⟩ testPairs).2 =
      List.replicate 50 true ∧
    (∀ kv ∈ testPairs,
      (setAllIfAbsent ⟨"./TestDoInitData.json", cmap.New⟩ testPairs).1.Get kv.1 = (kv.2, true)) ∧
    ((TData.mk "./TestDoInitData.json" cmap.New).Set (str "7")
        (.string (str "Test 7"))).SetIfAbsent (str "7") (.string (str "other")) =
      ((TData.mk "./TestDoInitData.json" cmap.New).Set (str "7") (.string (str "Test 7")),
        false) := by
  have hnd : (testPairs.map Prod.fst).Nodup := by decide
  have h := C5_SetIfAbsent
    ((TData.mk "./TestDoInitData.json" cmap.New).Set (str "7") (.string (str "Test 7")))
    (str "7") (.string (str "other"))
  obtain ⟨_, h2, h3⟩ := h
  have h3' := h3 testPairs hnd
  refine ⟨hnd, rfl, ?_, h3'.2, ?_⟩
  · exact h3'.1.trans (by rfl)
  · have := h2 (by rfl)
    exact Prod.ext this.2 this.1

/-- C6, as amended. If serializing the items fails then `store` returns an
error and writes no data: the target file is afterwards as it was or is
empty. The file system is unchanged when the lock marker cannot be created;
when the lock marker and the target file can both be created, the target file
has been created or truncated to empty before the failure is seen. No path
other than the target and the lock marker is touched. -/
theorem C6_encode_failure (J : JSON) (env : Env) (d : TData) (fs : FS) (err : GoError)
    (hm : d.MarshalJSON J = .error err) :
    (∃ msg, (store J env d fs).1 = some (.errorString msg)) ∧
    ((∃ e, fs (d.filepath ++ ".lock") = .denied e) → (store J env d fs).2 = fs) ∧
    ((store J env d fs).2 d.filepath = fs d.filepath ∨
      (store J env d fs).2 d.filepath = .file []) ∧
    ((∀ e, fs (d.filepath ++ ".lock") ≠ .denied e) → (∀ e, fs d.filepath ≠ .denied e) →
      (store J env d fs).2 d.filepath = .file []) ∧
    (∀ q, q ≠ d.filepath → q ≠ d.filepath ++ ".lock" → (store J env d fs).2 q = fs q) := by
  have hne := lock_ne d.filepath
  by_cases hl : ∃ e, fs (d.filepath ++ ".lock") = .denied e
  · obtain ⟨e, he⟩ := hl
    have hs := store_lock_denied J env d fs e he
    refine ⟨⟨_, by rw [hs]⟩, fun _ => by rw [hs], Or.inl (by rw [hs]), ?_, fun q _ _ => by rw [hs]⟩
    intro h
    exact absurd he (h e)
  · have hl' : ∀ e, fs (d.filepath ++ ".lock") ≠ .denied e := fun e he => hl ⟨e, he⟩
    by_cases hp : fs d.filepath = .denied .ENOENT
    · obtain ⟨hmsg, hfs⟩ := store_target_ENOENT J env d fs hl' hp
      have hrm : ∀ q, q ≠ d.filepath ++ ".lock" → (store J env d fs).2 q = fs q := by
        intro q hq
        rw [hfs, os.Remove_file env _ _ [] (Function.update_same _ _ _)]
        split
        · simp [Function.update_noteq hq]
        · simp [Function.update_noteq hq]
      refine ⟨hmsg, fun h => absurd h hl, Or.inl (hrm _ hne.symm), ?_, fun q _ hq => hrm q hq⟩
      intro _ h
      exact absurd hp (h _)
    · have hs := store_marshal_error J env d fs err hm hl' hp
      rcases os.Create_cases (Function.update fs (d.filepath ++ ".lock") (.file [])) d.filepath
        with ⟨e, he, hc⟩ | ⟨_, hc⟩
      · rw [hc] at hs
        have hfs : (store J env d fs).2 = Function.update fs (d.filepath ++ ".lock") (.file []) := by
          rw [hs]
        refine ⟨⟨_, by rw [hs]⟩, fun h => absurd h hl, Or.inl ?_, ?_, ?_⟩
        · rw [hfs, Function.update_noteq hne.symm]
        · intro _ h
          rw [Function.update_noteq hne.symm] at he
          exact absurd he (h e)
        · intro q _ hq
          rw [hfs, Function.update_noteq hq]
      · rw [hc] at hs
        have hfs : (store J env d fs).2 = Function.update (Function.update fs
            (d.filepath ++ ".lock") (.file [])) d.filepath (.file []) := by
          rw [hs]
        refine ⟨⟨_, by rw [hs]⟩, fun h => absurd h hl, Or.inr ?_, ?_, ?_⟩
        · rw [hfs, Function.update_same]
        · intro _ _
          rw [hfs, Function.update_same]
        · intro q hq1 hq2
          rw [hfs, Function.update_noteq hq1, Function.update_noteq hq2]

/-- C6 as stated fails. The store holds a value that cannot be serialized and
a snapshot is on disk: `store` returns an error, and yet the file system has
changed, the target file having been truncated to empty. -/
theorem C6_encode_failure_touches_files :
    chanStore.MarshalJSON goJSON = .error (.jsonError "json: unsupported type: chan int") ∧
    oneFile "./db.json" kvSnapshot "./db.json" = .file kvSnapshot ∧
    (store goJSON noFaults chanStore (oneFile "./db.json" kvSnapshot)).1 =
      some (.errorString "interpreting db to json: json: unsupported type: chan int") ∧
    (store goJSON noFaults chanStore (oneFile "./db.json" kvSnapshot)).2 "./db.json" = .file [] ∧
    (store goJSON noFaults chanStore (oneFile "./db.json" kvSnapshot)).2 ≠
      oneFile "./db.json" kvSnapshot := by
  refine ⟨rfl, rfl, rfl, rfl, ?_⟩
  intro h
  have h1 := congrFun h "./db.json"
  have h2 : (store goJSON noFaults chanStore (oneFile "./db.json" kvSnapshot)).2 "./db.json"
      = .file [] := rfl
  have h3 : oneFile "./db.json" kvSnapshot "./db.json" = .file kvSnapshot := rfl
  rw [h2, h3] at h1
  exact absurd h1 (by decide)

/-- The amended C6 on the same store over a snapshot. -/
theorem C6_encode_failure_witness :
    chanStore.MarshalJSON goJSON = .error (.jsonError "json: unsupported type: chan int") ∧
    (∃ msg, (store goJSON noFaults chanStore (oneFile "./db.json" kvSnapshot)).1 =
      some (.errorString msg)) ∧
    (store goJSON noFaults chanStore (oneFile "./db.json" kvSnapshot)).2 "./db.json" = .file [] ∧
    (store goJSON noFaults chanStore (oneFile "./db.json" kvSnapshot)).2 "./other.json" =
      oneFile "./db.json" kvSnapshot "./other.json" := by
  obtain ⟨h1, _, _, h4, h5⟩ := C6_encode_failure goJSON noFaults chanStore
    (oneFile "./db.json" kvSnapshot) (.jsonError "json: unsupported type: chan int") rfl
  refine ⟨rfl, h1, ?_, ?_⟩
  · refine h4 (fun e h => ?_) (fun e h => ?_)
    · have h0 : Node.absent = Node.denied e := h
      cases h0
    · have h0 : Node.file kvSnapshot = Node.denied e := h
      cases h0
  · exact h5 "./other.json" (by decide) (by decide)

/-- C7 fails on the code. After an encode failure, and after a failed write,
`store` returns its error and the lock marker is still there. -/
theorem C7_lock_marker_left_behind :
    (store goJSON noFaults chanStore emptyFS).1 =
      some (.errorString "interpreting db to json: json: unsupported type: chan int") ∧
    (store goJSON noFaults chanStore emptyFS).2 "./db.json.lock" = .file [] ∧
    (store goJSON diskFull kvStore emptyFS).1 =
      some (.errorString "writing json file: write ./db.json: no space left on device") ∧
    (store goJSON diskFull kvStore emptyFS).2 "./db.json.lock" = .file [] :=
  ⟨rfl, rfl, rfl, rfl⟩

/-- C8. Whenever the write to the target file reports a byte count smaller
than the number of bytes intended, which is the length of the serialized
bytes plus one for the newline, `store` returns an error and not success. -/
theorem C8_short_write_is_an_error (J : JSON) (env : Env) (d : TData) (fs : FS) (data : Bytes)
    (hm : d.MarshalJSON J = .ok data)
    (hshort : (File.Write env (os.Create (os.Create fs (d.filepath ++ ".lock")).2 d.filepath).2
      (os.Create (os.Create fs (d.filepath ++ ".lock")).2 d.filepath).1.1 (data ++ [10])).1.1
      < data.length + 1) :
    ∃ msg, (store J env d fs).1 = some (.errorString msg) := by
  cases hs : (store J env d fs).1 with
  | some e =>
    obtain ⟨msg, hmsg⟩ := store_error_is_errorString J env d fs e hs
    exact ⟨msg, by rw [hmsg]⟩
  | none =>
    exfalso
    have hw := store_ok_write J env d fs data hm hs
    have hne : (File.Write env (os.Create (os.Create fs (d.filepath ++ ".lock")).2 d.filepath).2
        (os.Create (os.Create fs (d.filepath ++ ".lock")).2 d.filepath).1.1 (data ++ [10])).1.1
        ≠ (data ++ [10]).length := by
      rw [List.length_append, List.length_singleton]
      omega
    obtain ⟨e, he⟩ := File_Write_short _ _ _ _ hne
    rw [hw] at he
    exact absurd he (by simp)

/-- A write that accepts the serialized bytes and not the newline. -/
theorem C8_short_write_is_an_error_witness :
    ((TData.mk "./db.json" cmap.New).Set (str "k") (.string (str "v"))).MarshalJSON goJSON =
      .ok (json.bytesOf "\x7b\"k\":\"v\"\x7d") ∧
    (File.Write diskFull (os.Create (os.Create emptyFS "./db.json.lock").2 "./db.json").2
      (os.Create (os.Create emptyFS "./db.json.lock").2 "./db.json").1.1
      (json.bytesOf "\x7b\"k\":\"v\"\x7d" ++ [10])).1.1 = 9 ∧
    (json.bytesOf "\x7b\"k\":\"v\"\x7d").length + 1 = 10 ∧
    (store goJSON diskFull ((TData.mk "./db.json" cmap.New).Set (str "k") (.string (str "v")))
      emptyFS).1 =
      some (.errorString "writing json file: write ./db.json: no space left on device") := by
  refine ⟨rfl, rfl, rfl, ?_⟩
  obtain ⟨msg, hmsg⟩ := C8_short_write_is_an_error goJSON diskFull
    ((TData.mk "./db.json" cmap.New).Set (str "k") (.string (str "v"))) emptyFS
    (json.bytesOf "\x7b\"k\":\"v\"\x7d") rfl (by decide)
  rw [hmsg]
  exact hmsg.symm.trans (by rfl)

/-- C9. In `Running`, a stop signal makes the scheduler stop its ticker and
enter `Stopped`, from which there is no step. In every run from the start,
whatever is offered to the scheduler after a stop signal changes nothing: the
number of calls of `store`, the errors sent and the file system stay as they
were when the stop was accepted. -/
theorem C9_stop_is_final (J : JSON) (env : Env) (p : String) (fs0 : FS)
    (pre post : List Event) :
    (∀ s : Sync, s.state = .Running →
      StartSync.step J env p s .stop = some { s with state := .Stopped, ticking := false }) ∧
    (∀ (s : Sync) (ev : Event), s.state = .Stopped → StartSync.step J env p s ev = none) ∧
    (StartSync.run J env p (StartSync.start fs0) (pre ++ [.stop])).state = .Stopped ∧
    (StartSync.run J env p (StartSync.start fs0) (pre ++ [.stop])).ticking = false ∧
    (StartSync.run J env p (StartSync.start fs0) (pre ++ .stop :: post)).flushes =
      (StartSync.run J env p (StartSync.start fs0) (pre ++ [.stop])).flushes ∧
    (StartSync.run J env p (StartSync.start fs0) (pre ++ .stop :: post)).sent =
      (StartSync.run J env p (StartSync.start fs0) (pre ++ [.stop])).sent ∧
    (StartSync.run J env p (StartSync.start fs0) (pre ++ .stop :: post)).fs =
      (StartSync.run J env p (StartSync.start fs0) (pre ++ [.stop])).fs ∧
    (StartSync.run J env p (StartSync.start fs0) (pre ++ .stop :: post)).state = .Stopped := by
  obtain ⟨h1, h2⟩ := run_stop_final J env p (StartSync.start fs0) pre post
  refine ⟨fun s h => step_stop J env p s h, fun s ev h => step_Stopped J env p s ev h, h1, ?_,
    by rw [h2], by rw [h2], by rw [h2], by rw [h2]; exact h1⟩
  refine run_invariant J env p _ (StartSync.start fs0) ?_ h1
  intro h
  cases h

/-- A run with one tick, the stop signal, and two more ticks offered. -/
theorem C9_stop_is_final_witness :
    (StartSync.run goJSON noFaults "./db.json" (StartSync.start emptyFS)
      ([.tick kvStore.items] ++ [.stop])).state = .Stopped ∧
    (StartSync.run goJSON noFaults "./db.json" (StartSync.start emptyFS)
      ([.tick kvStore.items] ++ [.stop])).flushes = 1 ∧
    (StartSync.run goJSON noFaults "./db.json" (StartSync.start emptyFS)
      ([.tick kvStore.items] ++ .stop :: [.tick chanStore.items, .tick ∅])).flushes = 1 ∧
    (StartSync.run goJSON noFaults "./db.json" (StartSync.start emptyFS)
      ([.tick kvStore.items] ++ .stop :: [.tick chanStore.items, .tick ∅])).sent = [] ∧
    (StartSync.run goJSON noFaults "./db.json" (StartSync.start emptyFS)
      ([.tick kvStore.items] ++ .stop :: [.tick chanStore.items, .tick ∅])).fs "./db.json" =
      .file kvSnapshot := by
  obtain ⟨_, _, h3, _, h5, h6, h7, _⟩ := C9_stop_is_final goJSON noFaults "./db.json" emptyFS
    [.tick kvStore.items] [.tick chanStore.items, .tick ∅]
  refine ⟨h3, rfl, ?_, ?_, ?_⟩
  · rw [h5]; rfl
  · rw [h6]; rfl
  · rw [h7]; rfl

/-- C10. For every tick handled while the scheduler is `Running`, `store` is
called exactly once; an error it returns is sent on the error channel, and
nothing is sent when it returns none; afterwards the scheduler is still
`Running`, on the file system that `store` left. -/
theorem C10_tick_reports_errors (J : JSON) (env : Env) (p : String) (s : Sync) (items : GoMap)
    (h : s.state = .Running) :
    ∃ s1, StartSync.step J env p s (.tick items) = some s1 ∧
      s1.state = .Running ∧ s1.ticking = s.ticking ∧
      s1.flushes = s.flushes + 1 ∧
      s1.fs = (store J env ⟨p, items⟩ s.fs).2 ∧
      (∀ e, (store J env ⟨p, items⟩ s.fs).1 = some e → s1.sent = s.sent ++ [e]) ∧
      ((store J env ⟨p, items⟩ s.fs).1 = none → s1.sent = s.sent) := by
  refine ⟨_, step_tick J env p s items h, h, rfl, rfl, rfl, ?_, ?_⟩
  · intro e he
    simp only [he]
  · intro he
    simp only [he]

/-- A tick whose flush fails, then a tick whose flush succeeds. -/
theorem C10_tick_reports_errors_witness :
    (StartSync.start emptyFS).state = .Running ∧
    (∃ s1, StartSync.step goJSON noFaults "./db.json" (StartSync.start emptyFS)
        (.tick chanStore.items) = some s1 ∧
      s1.state = .Running ∧ s1.flushes = 1 ∧
      s1.sent = [.errorString "interpreting db to json: json: unsupported type: chan int"]) ∧
    (∃ s1, StartSync.step goJSON noFaults "./db.json" (StartSync.start emptyFS)
        (.tick kvStore.items) = some s1 ∧
      s1.state = .Running ∧ s1.flushes = 1 ∧ s1.sent = []) := by
  refine ⟨rfl, ?_, ?_⟩
  · obtain ⟨s1, h1, h2, _, h4, _, h6, _⟩ := C10_tick_reports_errors goJSON noFaults "./db.json"
      (StartSync.start emptyFS) chanStore.items rfl
    exact ⟨s1, h1, h2, h4, h6 _ rfl⟩
  · obtain ⟨s1, h1, h2, _, h4, _, _, h7⟩ := C10_tick_reports_errors goJSON noFaults "./db.json"
      (StartSync.start emptyFS) kvStore.items rfl
    exact ⟨s1, h1, h2, h4, h7 rfl⟩

end Data
